import Mathlib

/-
  Verification development for the SeedVR causal-inflation library
  (models/video_vae_v3/modules/causal_inflation_lib.py).

  Shallow embedding conventions:
  - Dense tensors are embedded either as nested lists along the axes the
    code manipulates, or as a record of extents plus an index-valuation
    into the rationals.  Machine floats are embedded as rationals: the
    claims under study are about data movement (splitting, caching,
    padding, slicing), not rounding, and the spec reads all equalities
    "within floating-point accumulation order".
  - The dense convolution and normalization primitives are external
    capabilities of the code (torch); they are embedded as arbitrary
    per-window aggregation functions, which captures exactly the
    window geometry the library relies on.
  - Python asserts and raised exceptions are embedded as Except.error.
-/

namespace CausalInflation

/-- Memory state tags of the streaming protocol (types.MemoryState). -/
inductive MemoryState where
  | UNSET
  | INITIALIZING
  | ACTIVE
  | DISABLED
deriving DecidableEq, Repr

/-- Inflation modes accepted at layer construction (types._inflation_mode_t). -/
inductive InflationMode where
  | none
  | tail
  | replicate
deriving DecidableEq, Repr

/-- Memory devices for the boundary cache (types._memory_device_t); the source
distinguishes None (caching disabled), "same" and "cpu".  Moving a tensor to
the cpu preserves its values, so the device only matters as an enable flag. -/
inductive MemoryDevice where
  | same
  | cpu
deriving DecidableEq, Repr

/- ## Python slicing on the temporal axis

The source slices tensors along dim 2 with possibly negative start indices
(`input[:, :, mem_size:]`).  We embed the temporal axis as a list and Python
slice semantics explicitly. -/

/-- Python slice `l[i:]` for an arbitrary (possibly negative) integer start:
start is clamped to `[0, len]`, counting from the right end when negative. -/
def pySliceFrom (l : List α) (i : ℤ) : List α :=
  if i < 0 then l.drop (l.length - min l.length i.natAbs)
  else l.drop i.toNat

/-- Last `n` elements of a list (all of it when shorter). -/
def lastN (n : ℕ) (l : List α) : List α :=
  l.drop (l.length - n)

/- ## extend_head / remove_head (source lines 369-394)

Only the temporal axis (dim 2) is touched: `tensor[:, :, :1]` is the first
frame, `torch.tile` with repeat `times` at dim 2 duplicates it, and
`torch.cat(..., dim=2)` concatenates frames.  A tensor is embedded as its
list of frames; batch/channel/space ride along inside each frame value.
`memory.to(tensor)` converts dtype/device and preserves values, so it is the
identity here.  The source asserts `times >= 0` in the no-memory branch;
every call site satisfies it, and the claims under study stay in that
domain. -/

/-- Source `remove_head`: drop the duplicated head frames on rank 0. -/
def remove_head (sp_rank : ℕ) (tensor : List α) (times : ℕ) : List α :=
  if times = 0 ∨ sp_rank > 0 then tensor
  else tensor.take 1 ++ tensor.drop (times + 1)

/-- Source `extend_head`: prepend `memory` when given, otherwise duplicate the
first frame `times` times. -/
def extend_head (tensor : List α) (times : ℤ) (memory : Option (List α)) : List α :=
  match memory with
  | some m => m ++ tensor
  | Option.none =>
    if times ≤ 0 then tensor
    else (List.replicate times.toNat (tensor.take 1)).flatten ++ tensor

theorem extend_head_cons (a : α) (t : List α) (n : ℕ) :
    extend_head (a :: t) (n : ℤ) Option.none = List.replicate n a ++ a :: t := by
  unfold extend_head
  rcases n with _ | m
  · simp
  · have hpos : ¬ ((m + 1 : ℤ) ≤ 0) := by omega
    simp only [Nat.cast_add, Nat.cast_one, hpos, if_false]
    have : (((m : ℤ) + 1).toNat) = m + 1 := by omega
    rw [this]
    have hjoin : ∀ j : ℕ, (List.replicate j ((a :: t).take 1)).flatten = List.replicate j a := by
      intro j
      induction j with
      | zero => simp
      | succ j ih => simp [List.replicate_succ, ih]
    simp [hjoin]

/-- C9: removing the duplicated head undoes extending it: for a nonempty
frame list, any duplication count, no memory tensor and sequence-parallel
rank 0, `remove_head (extend_head t n) n = t`. -/
theorem remove_head_extend_head (l : List α) (n : ℕ) (h : l ≠ []) :
    remove_head 0 (extend_head l (n : ℤ) Option.none) n = l := by
  rcases l with _ | ⟨a, t⟩
  · exact absurd rfl h
  rw [extend_head_cons]
  unfold remove_head
  rcases n with _ | m
  · simp
  · have hne : ¬ (m + 1 = 0 ∨ (0 : ℕ) > 0) := by omega
    simp only [hne, if_false]
    have htake : (List.replicate (m + 1) a ++ a :: t).take 1 = [a] := by
      simp [List.replicate_succ]
    have hdrop : (List.replicate (m + 1) a ++ a :: t).drop (m + 1 + 1) = t := by
      rw [List.drop_append_eq_append_drop]
      simp [List.length_replicate]
    rw [htake, hdrop]
    rfl

/-- C9 witness: a concrete instance of the round-trip. -/
theorem remove_head_extend_head_witness :
    remove_head 0 (extend_head [10, 20, 30] ((2 : ℕ) : ℤ) Option.none) 2 = [10, 20, 30] :=
  remove_head_extend_head [10, 20, 30] 2 (by decide)

/- ## Weight inflation (source lines 397-443)

Weights are embedded as extents plus an index valuation.  `inflate_weight`
mutates `weight_3d` in place under `torch.no_grad`; we embed the mutation as
returning the new tensor.  `copy_` additionally requires the copied extents
to agree (a torch RuntimeError otherwise), and indexing `[:, :, -1]` requires
a nonempty temporal extent. -/

/-- A 1-D parameter tensor (a convolution bias). -/
structure Tensor1 where
  n : ℕ
  val : ℕ → ℚ

/-- A 4-D parameter tensor (a 2-D convolution weight, o × i × h × w). -/
structure Tensor4 where
  o : ℕ
  i : ℕ
  h : ℕ
  w : ℕ
  val : ℕ → ℕ → ℕ → ℕ → ℚ

/-- A 5-D parameter tensor (a 3-D convolution weight, o × i × t × h × w). -/
structure Tensor5 where
  o : ℕ
  i : ℕ
  t : ℕ
  h : ℕ
  w : ℕ
  val : ℕ → ℕ → ℕ → ℕ → ℕ → ℚ

/-- Source `inflate_weight`: inflate a 2-D conv weight into a 3-D conv
weight.  `replicate` tiles the 2-D kernel across the temporal axis divided
by the depth; `tail` zero-fills and copies the 2-D kernel into the last
temporal slice. -/
def inflate_weight (weight_2d : Tensor4) (weight_3d : Tensor5)
    (inflation_mode : InflationMode) : Except String Tensor5 :=
  if ¬(inflation_mode = InflationMode.tail ∨ inflation_mode = InflationMode.replicate) then
    Except.error "AssertionError: inflation_mode"
  else if ¬(weight_3d.o = weight_2d.o ∧ weight_3d.i = weight_2d.i) then
    Except.error "AssertionError: leading shape mismatch"
  else if ¬(weight_3d.h = weight_2d.h ∧ weight_3d.w = weight_2d.w) then
    Except.error "RuntimeError: copy target shape mismatch"
  else if inflation_mode = InflationMode.replicate then
    Except.ok { weight_3d with
      val := fun o i _t h w => weight_2d.val o i h w / (weight_3d.t : ℚ) }
  else if weight_3d.t = 0 then
    Except.error "IndexError: empty temporal axis"
  else
    Except.ok { weight_3d with
      val := fun o i t h w =>
        if t = weight_3d.t - 1 then weight_2d.val o i h w else 0 }

/-- Source `inflate_bias`: the bias is copied unchanged; the mode is a
placeholder. -/
def inflate_bias (bias_2d : Tensor1) (bias_3d : Tensor1)
    (_inflation_mode : InflationMode) : Except String Tensor1 :=
  if ¬(bias_3d.n = bias_2d.n) then
    Except.error "AssertionError: bias shape mismatch"
  else
    Except.ok { bias_3d with val := bias_2d.val }

/-- C6: tail-mode inflation yields a kernel that is zero at every temporal
slice except the last, whose last temporal slice is the stored 2-D kernel;
and under both `tail` and `replicate` the bias is copied unchanged. -/
theorem inflate_weight_tail_inflate_bias
    (w2 : Tensor4) (w3 : Tensor5) (b2 b3 : Tensor1)
    (ho : w3.o = w2.o) (hi : w3.i = w2.i) (hh : w3.h = w2.h) (hw : w3.w = w2.w)
    (ht : 0 < w3.t) (hb : b3.n = b2.n) :
    (∃ r, inflate_weight w2 w3 InflationMode.tail = Except.ok r ∧
      (∀ o i t h w, t ≠ w3.t - 1 → r.val o i t h w = 0) ∧
      (∀ o i h w, r.val o i (w3.t - 1) h w = w2.val o i h w)) ∧
    (∀ m, (m = InflationMode.tail ∨ m = InflationMode.replicate) →
      ∃ rb, inflate_bias b2 b3 m = Except.ok rb ∧ ∀ j, rb.val j = b2.val j) := by
  constructor
  · refine ⟨{ w3 with val := fun o i t h w =>
      if t = w3.t - 1 then w2.val o i h w else 0 }, ?_, ?_, ?_⟩
    · unfold inflate_weight
      have h0 : ¬ (w3.t = 0) := by omega
      simp [ho, hi, hh, hw, h0]
    · intro o i t h w hne
      simp [hne]
    · intro o i h w
      simp
  · intro m _
    refine ⟨{ b3 with val := b2.val }, ?_, fun j => rfl⟩
    unfold inflate_bias
    simp [hb]

/-- A sample 2-D weight for the inflation witness. -/
def sampleW2 : Tensor4 := ⟨2, 3, 3, 3, fun o i h w => (o + i + h + w : ℚ)⟩

/-- A sample 3-D weight target for the inflation witness. -/
def sampleW3 : Tensor5 := ⟨2, 3, 4, 3, 3, fun _ _ _ _ _ => 7⟩

/-- A sample bias pair for the inflation witness. -/
def sampleB : Tensor1 := ⟨2, fun j => (j : ℚ)⟩

/-- C6 witness: the inflation theorem applied at concrete tensors. -/
theorem inflate_weight_tail_inflate_bias_witness :
    (∃ r, inflate_weight sampleW2 sampleW3 InflationMode.tail = Except.ok r ∧
      (∀ o i t h w, t ≠ sampleW3.t - 1 → r.val o i t h w = 0) ∧
      (∀ o i h w, r.val o i (sampleW3.t - 1) h w = sampleW2.val o i h w)) ∧
    (∀ m, (m = InflationMode.tail ∨ m = InflationMode.replicate) →
      ∃ rb, inflate_bias sampleB sampleB m = Except.ok rb ∧ ∀ j, rb.val j = sampleB.val j) :=
  inflate_weight_tail_inflate_bias sampleW2 sampleW3 sampleB sampleB
    (by decide) (by decide) (by decide) (by decide) (by decide) (by decide)

/- ## ignore_padding (source lines 41-48)

The context manager saves the module's `padding` field, zeroes it, runs the
body, and restores the saved value in a `finally` block, so restoration
happens on every exit path, raising included.  The module is embedded as a
record with the padding field and an opaque remainder that the body may
mutate; the body returns an `Except` to model a possible raise. -/

/-- A module with a mutable `padding` field and arbitrary further state. -/
structure PaddedModule (σ : Type) where
  padding : ℕ × ℕ × ℕ
  rest : σ

/-- Source `ignore_padding`: scoped zeroing of the padding field with
restoration on every exit path (the `finally` block). -/
def ignore_padding (model : PaddedModule σ)
    (body : PaddedModule σ → Except ε α × PaddedModule σ) :
    Except ε α × PaddedModule σ :=
  let orig_padding := model.padding
  let entered := { model with padding := (0, 0, 0) }
  let bodyResult := body entered
  (bodyResult.1, { bodyResult.2 with padding := orig_padding })

/-- C8: after `ignore_padding`, the padding field equals its original value,
whatever the body did and whether or not it raised; the body's result (value
or raised error) and its other state changes are passed through. -/
theorem ignore_padding_restores (model : PaddedModule σ)
    (body : PaddedModule σ → Except ε α × PaddedModule σ) :
    (ignore_padding model body).2.padding = model.padding ∧
    (ignore_padding model body).1 =
      (body { model with padding := (0, 0, 0) }).1 ∧
    (ignore_padding model body).2.rest =
      (body { model with padding := (0, 0, 0) }).2.rest := by
  unfold ignore_padding
  exact ⟨rfl, rfl, rfl⟩

/- ## causal_norm_wrapper (source lines 329-366)

The claims about the wrapper concern control flow (which branch runs, when
the divisibility assert fires) and the dtype of the returned tensor — not
the numeric values produced by the normalization primitives.  A tensor is
therefore embedded as a shape together with a dtype, and the primitives
(`norm_layer(x)` and `F.group_norm`) as arbitrary function parameters that
may change shape and dtype at will, matching the spec's treatment of them
as an external capability.  `get_norm_limit()` is the configured ceiling,
passed in as a parameter. -/

/-- A torch dtype: an identity tag plus its item size in bytes. -/
structure Dty where
  id : ℕ
  itemsize : ℕ
deriving DecidableEq, Repr

/-- A tensor at the shape-and-dtype level of abstraction. -/
structure NTensor where
  shape : List ℕ
  dty : Dty
deriving DecidableEq, Repr

/-- Number of axes. -/
def NTensor.ndim (x : NTensor) : ℕ := x.shape.length

/-- Number of elements. -/
def NTensor.numel (x : NTensor) : ℕ := x.shape.prod

/-- Source `.to(dtype)`: value-preserving dtype cast. -/
def toDtype (x : NTensor) (d : Dty) : NTensor := { x with dty := d }

/-- The normalization layers dispatched on by the wrapper. -/
inductive NormLayer where
  | layerNorm
  | rmsNorm
  | groupNorm (num_groups : ℕ)
  | batchNorm2d
  | syncBatchNorm
deriving DecidableEq, Repr

/-- Whether the layer is a GroupNorm (the only kind that chunks). -/
def NormLayer.isGroupNorm : NormLayer → Bool
  | NormLayer.groupNorm _ => true
  | _ => false

/-- The `num_groups` attribute (only read on GroupNorm). -/
def NormLayer.numGroups : NormLayer → ℕ
  | NormLayer.groupNorm g => g
  | _ => 0

/-- einops rearrange b c h w -> b h w c. -/
def rearrange4to_last (x : NTensor) : NTensor :=
  { x with shape := match x.shape with | [b, c, h, w] => [b, h, w, c] | s => s }

/-- einops rearrange b h w c -> b c h w. -/
def rearrange4from_last (x : NTensor) : NTensor :=
  { x with shape := match x.shape with | [b, h, w, c] => [b, c, h, w] | s => s }

/-- einops rearrange b c t h w -> b t h w c. -/
def rearrange5to_last (x : NTensor) : NTensor :=
  { x with shape := match x.shape with | [b, c, t, h, w] => [b, t, h, w, c] | s => s }

/-- einops rearrange b t h w c -> b c t h w. -/
def rearrange5from_last (x : NTensor) : NTensor :=
  { x with shape := match x.shape with | [b, t, h, w, c] => [b, c, t, h, w] | s => s }

/-- einops rearrange b c t h w -> (b t) c h w. -/
def rearrangeFold (x : NTensor) : NTensor :=
  { x with shape := match x.shape with | [b, c, t, h, w] => [b * t, c, h, w] | s => s }

/-- einops rearrange (b t) c h w -> b c t h w. -/
def rearrangeUnfold (x : NTensor) (t : ℕ) : NTensor :=
  { x with shape := match x.shape with | [bt, c, h, w] => [bt / t, c, t, h, w] | s => s }

/-- Chunk sizes of `torch.chunk(n, ...)` on an axis of extent `c`: pieces of
size the ceiling of c / n, a smaller trailing piece for the remainder. -/
def chunkSizes (c n : ℕ) : List ℕ :=
  let q := (c + n - 1) / n
  if q = 0 then []
  else List.replicate (c / q) q ++ (if c % q = 0 then [] else [c % q])

/-- The list of chunks of `torch.chunk(x, n, dim=1)`, at shape level. -/
def chunkDim1 (x : NTensor) (n : ℕ) : List NTensor :=
  (chunkSizes (x.shape.getD 1 0) n).map fun s => { x with shape := x.shape.set 1 s }

/-- Shape-level `torch.cat(l, dim=1)`. -/
def catDim1 (l : List NTensor) (dflt : Dty) : NTensor :=
  match l with
  | [] => { shape := [], dty := dflt }
  | hd :: _ => { shape := hd.shape.set 1 ((l.map fun y => y.shape.getD 1 0).sum), dty := hd.dty }

/-- Source `causal_norm_wrapper`.  `norm_limit` embeds `get_norm_limit()`;
`normApply` embeds `norm_layer(x)` and `groupNormApply` embeds
`F.group_norm(x, num_groups_per_chunk, w, b, eps)`, both with arbitrary
behavior.  Falling off the end of the source function hits
`raise NotImplementedError`. -/
def causal_norm_wrapper (norm_limit : ℚ)
    (normApply : NormLayer → NTensor → NTensor)
    (groupNormApply : ℕ → NTensor → NTensor)
    (norm_layer : NormLayer) (x : NTensor) : Except String NTensor :=
  let input_dtype := x.dty
  if norm_layer = NormLayer.layerNorm ∨ norm_layer = NormLayer.rmsNorm then
    if x.ndim = 4 then
      Except.ok (toDtype (rearrange4from_last (normApply norm_layer (rearrange4to_last x)))
        input_dtype)
    else if x.ndim = 5 then
      Except.ok (toDtype (rearrange5from_last (normApply norm_layer (rearrange5to_last x)))
        input_dtype)
    else Except.error "NotImplementedError"
  else
    if x.ndim ≤ 4 then
      Except.ok (toDtype (normApply norm_layer x) input_dtype)
    else if x.ndim = 5 then
      let t := x.shape.getD 2 0
      let xf := rearrangeFold x
      let memory_occupy : ℚ := ((xf.numel * xf.dty.itemsize : ℕ) : ℚ) / 1024 ^ 3
      if norm_layer.isGroupNorm ∧ memory_occupy > norm_limit then
        let num_chunks := min (if xf.dty.itemsize = 2 then 4 else 2) norm_layer.numGroups
        if ¬(norm_layer.numGroups % num_chunks = 0) then
          Except.error "AssertionError: num_groups not divisible by num_chunks"
        else
          let num_groups_per_chunk := norm_layer.numGroups / num_chunks
          let normed := (chunkDim1 xf num_chunks).map fun c =>
            toDtype (groupNormApply num_groups_per_chunk c) input_dtype
          Except.ok (toDtype (rearrangeUnfold (catDim1 normed input_dtype) t) input_dtype)
      else
        Except.ok (toDtype (rearrangeUnfold (normApply norm_layer xf) t) input_dtype)
    else Except.error "NotImplementedError"

/-- C7: when the chunked grouped-normalization path is selected (5-D input,
GroupNorm, footprint above the ceiling) and the group count is not evenly
divisible by the chosen chunk count, the wrapper fails with the precondition
assert rather than falling back. -/
theorem causal_norm_wrapper_divisibility (norm_limit : ℚ)
    (normApply : NormLayer → NTensor → NTensor)
    (groupNormApply : ℕ → NTensor → NTensor)
    (g : ℕ) (x : NTensor)
    (h5 : x.ndim = 5)
    (hocc : (((rearrangeFold x).numel * (rearrangeFold x).dty.itemsize : ℕ) : ℚ) / 1024 ^ 3
      > norm_limit)
    (hdiv : ¬ (g % min (if x.dty.itemsize = 2 then 4 else 2) g = 0)) :
    causal_norm_wrapper norm_limit normApply groupNormApply (NormLayer.groupNorm g) x =
      Except.error "AssertionError: num_groups not divisible by num_chunks" := by
  have hne : ¬ (NormLayer.groupNorm g = NormLayer.layerNorm ∨
      NormLayer.groupNorm g = NormLayer.rmsNorm) := by
    intro hc
    rcases hc with hc | hc <;> exact absurd hc (by simp)
  have h4 : ¬ (x.ndim ≤ 4) := by omega
  unfold causal_norm_wrapper
  dsimp only
  rw [if_neg hne, if_neg h4, if_pos h5]
  have hcond : (NormLayer.groupNorm g).isGroupNorm = true ∧
      (((rearrangeFold x).numel * (rearrangeFold x).dty.itemsize : ℕ) : ℚ) / 1024 ^ 3
        > norm_limit := ⟨rfl, hocc⟩
  rw [if_pos hcond]
  have hdiv2 : ¬ ((NormLayer.groupNorm g).numGroups %
      min (if (rearrangeFold x).dty.itemsize = 2 then 4 else 2)
        (NormLayer.groupNorm g).numGroups = 0) := by
    have h1 : (NormLayer.groupNorm g).numGroups = g := rfl
    have h2 : (rearrangeFold x).dty.itemsize = x.dty.itemsize := rfl
    rw [h1, h2]
    exact hdiv
  rw [if_pos hdiv2]

/-- A sample 5-D tensor for the normalization witnesses: batch 1, 6
channels, 3 frames, 4 by 4 pixels, a 2-byte dtype. -/
def sampleNorm5 : NTensor := ⟨[1, 6, 3, 4, 4], ⟨1, 2⟩⟩

/-- C7 witness: with 6 groups, a 2-byte dtype (chunk count 4, and 6 is not
divisible by 4) and a zero ceiling, the wrapper fails the assert. -/
theorem causal_norm_wrapper_divisibility_witness :
    causal_norm_wrapper 0 (fun _ t => t) (fun _ t => t) (NormLayer.groupNorm 6) sampleNorm5 =
      Except.error "AssertionError: num_groups not divisible by num_chunks" :=
  causal_norm_wrapper_divisibility 0 (fun _ t => t) (fun _ t => t) 6 sampleNorm5
    (by decide) (by norm_num [rearrangeFold, sampleNorm5, NTensor.numel]) (by decide)

/-- C10: whenever the wrapper returns a tensor, that tensor's dtype equals
the input tensor's dtype, for every normalization kind, every input rank and
every behavior (including dtype changes) of the underlying primitives. -/
theorem causal_norm_wrapper_dtype (norm_limit : ℚ)
    (normApply : NormLayer → NTensor → NTensor)
    (groupNormApply : ℕ → NTensor → NTensor)
    (norm_layer : NormLayer) (x : NTensor) (y : NTensor)
    (h : causal_norm_wrapper norm_limit normApply groupNormApply norm_layer x = Except.ok y) :
    y.dty = x.dty := by
  unfold causal_norm_wrapper at h
  dsimp only at h
  split_ifs at h <;> (injection h with h; rw [← h]; rfl)

/-- C10 witness: the dtype theorem applied to a concrete LayerNorm call with
a primitive that maliciously changes the dtype. -/
theorem causal_norm_wrapper_dtype_witness :
    NTensor.dty ⟨[1, 2, 3, 4], ⟨1, 2⟩⟩ = NTensor.dty ⟨[1, 2, 3, 4], ⟨1, 2⟩⟩ :=
  causal_norm_wrapper_dtype 0 (fun _ t => toDtype t ⟨9, 4⟩) (fun _ t => t)
    NormLayer.layerNorm ⟨[1, 2, 3, 4], ⟨1, 2⟩⟩ ⟨[1, 2, 3, 4], ⟨1, 2⟩⟩ rfl

/- ## InflatedCausalConv3d.forward / basic_forward (source lines 164-199)

The layer is embedded along its temporal axis: a 5-D tensor is its list of
frames (each frame an opaque value carrying batch, channel and space), and
`super().forward` — the dense torch Conv3d with the temporal padding removed
by the constructor — maps the frame window [j*stride, j*stride + kernel) to
output frame j through a fixed function `kernelApply` (the kernel applied
across channels and space, with the module's symmetric spatial padding
folded in).  The embedding covers the configuration `forward` dispatches to
`basic_forward`: infinite memory limit, plain tensor input, no
sequence-parallel group.  Moving the cache to the cpu preserves its values,
so `memory_device` acts as an enable flag with two enabled tiers. -/

/-- Number of valid convolution windows of size `k` and step `s` over `n`
positions (torch output extent; torch raises when this is 0, so theorems
below keep inputs long enough for at least one window). -/
def numWin (k s n : ℕ) : ℕ :=
  if k ≤ n then (n - k) / s + 1 else 0

/-- The successive windows of size `k` and step `s` of a list. -/
def windows (k s : ℕ) (l : List α) : List (List α) :=
  (List.range (numWin k s l.length)).map fun i => (l.drop (i * s)).take k

/-- The causal conv layer state in the basic-forward configuration. -/
structure CausalConvLayer (α β : Type) where
  kernel_size : ℕ
  stride : ℕ
  temporal_padding : ℕ
  training : Bool
  memory_device : Option MemoryDevice
  memory : Option (List α)
  kernelApply : List α → β

/-- The dense conv primitive `super().forward` along the temporal axis. -/
def convForward (L : CausalConvLayer α β) (input : List α) : List β :=
  (windows L.kernel_size L.stride input).map L.kernelApply

/-- The head-extension step of `basic_forward`: prepend the stored memory
when it is present and the state is ACTIVE, otherwise duplicate the first
frame `temporal_padding * 2` times. -/
def extended_input (L : CausalConvLayer α β) (input : List α) (memory_state : MemoryState) :
    List α :=
  if L.memory.isSome ∧ memory_state = MemoryState.ACTIVE then
    extend_head input (-1) L.memory
  else
    extend_head input ((L.temporal_padding * 2 : ℕ) : ℤ) Option.none

/-- Source `basic_forward`: extend the head, capture the new memory slice
`input[:, :, mem_size:]` with `mem_size = stride - kernel`, store it when
caching is enabled, and run the dense convolution on the extended input. -/
def basic_forward (L : CausalConvLayer α β) (input : List α) (memory_state : MemoryState) :
    List β × CausalConvLayer α β :=
  let mem_size : ℤ := (L.stride : ℤ) - (L.kernel_size : ℤ)
  let input1 := extended_input L input memory_state
  let memory : Option (List α) :=
    if mem_size ≠ 0 ∧ memory_state ≠ MemoryState.DISABLED then
      some (pySliceFrom input1 mem_size)
    else Option.none
  let L1 :=
    if memory_state ≠ MemoryState.DISABLED ∧ L.training = false ∧
        L.memory_device.isSome then
      { L with memory := memory }
    else L
  (convForward L input1, L1)

/-- The entry effect of `forward`: any state other than ACTIVE clears the
stored memory before dispatch. -/
def forward_entry (L : CausalConvLayer α β) (memory_state : MemoryState) :
    CausalConvLayer α β :=
  if memory_state ≠ MemoryState.ACTIVE then { L with memory := Option.none } else L

/-- Source `forward` in the basic configuration: assert the state is not
UNSET, clear the memory unless ACTIVE, dispatch to `basic_forward`. -/
def forward (L : CausalConvLayer α β) (input : List α) (memory_state : MemoryState) :
    Except String (List β × CausalConvLayer α β) :=
  if memory_state = MemoryState.UNSET then
    Except.error "AssertionError: memory_state is UNSET"
  else
    Except.ok (basic_forward (forward_entry L memory_state) input memory_state)

theorem pySliceFrom_neg (l : List α) (i : ℤ) (h : i < 0) :
    pySliceFrom l i = lastN i.natAbs l := by
  unfold pySliceFrom lastN
  rw [if_pos h]
  congr 1
  omega

/- ### C3: what boundary cache a forward call stores -/

/-- C3 (amended): after a successful forward call with state neither UNSET
nor DISABLED, not training, and an enabled memory device, when
`kernel >= stride` the stored cache is the trailing `kernel - stride`
frames of the cache-extended input (no cache when `kernel = stride`). -/
theorem forward_stores_trailing (L : CausalConvLayer α β) (input : List α) (st : MemoryState)
    (hu : st ≠ MemoryState.UNSET) (hd : st ≠ MemoryState.DISABLED)
    (htr : L.training = false) (hdev : L.memory_device.isSome)
    (hks : L.stride ≤ L.kernel_size) :
    ∃ out L1, forward L input st = Except.ok (out, L1) ∧
      L1.memory = (if L.kernel_size = L.stride then Option.none
        else some (lastN (L.kernel_size - L.stride)
          (extended_input (forward_entry L st) input st))) := by
  have hforward : forward L input st =
      Except.ok (basic_forward (forward_entry L st) input st) := by
    unfold forward
    rw [if_neg hu]
  refine ⟨(basic_forward (forward_entry L st) input st).1,
    (basic_forward (forward_entry L st) input st).2, by rw [hforward], ?_⟩
  have htr0 : (forward_entry L st).training = false := by
    unfold forward_entry; split <;> exact htr
  have hdev0 : (forward_entry L st).memory_device.isSome := by
    unfold forward_entry; split <;> exact hdev
  have hk0 : (forward_entry L st).kernel_size = L.kernel_size := by
    unfold forward_entry; split <;> rfl
  have hs0 : (forward_entry L st).stride = L.stride := by
    unfold forward_entry; split <;> rfl
  unfold basic_forward
  dsimp only
  rw [if_pos ⟨hd, htr0, hdev0⟩]
  dsimp only
  by_cases hek : L.kernel_size = L.stride
  · have h0 : ¬ (((forward_entry L st).stride : ℤ) - ((forward_entry L st).kernel_size : ℤ) ≠ 0
        ∧ st ≠ MemoryState.DISABLED) := by
      rw [hk0, hs0, hek]
      intro hc
      exact hc.1 (by ring)
    rw [if_neg h0, if_pos hek]
  · have hlt : L.stride < L.kernel_size := lt_of_le_of_ne hks fun he => hek he.symm
    have hm : ((forward_entry L st).stride : ℤ) - ((forward_entry L st).kernel_size : ℤ) ≠ 0
        ∧ st ≠ MemoryState.DISABLED := by
      refine ⟨?_, hd⟩
      rw [hk0, hs0]
      omega
    rw [if_pos hm, if_neg hek]
    rw [pySliceFrom_neg _ _ (by rw [hk0, hs0]; omega)]
    congr 2
    rw [hk0, hs0]
    omega

/-- A concrete basic-configuration layer: temporal kernel 3, stride 1,
temporal padding 1, eval mode, enabled memory device, no stored cache; the
dense primitive returns the window itself so outputs identify windows. -/
def sampleLayer3 : CausalConvLayer ℕ (List ℕ) where
  kernel_size := 3
  stride := 1
  temporal_padding := 1
  training := false
  memory_device := some MemoryDevice.same
  memory := Option.none
  kernelApply := id

/-- C3 counterexample: with kernel 3 and stride 1 the claim's
`stride - kernel` count, clamped to at least 0, is 0 — meaning no cache —
but the call stores the trailing 2 frames of the extended input
[1,1,1,2,3,4], namely [3,4]. -/
theorem forward_stores_trailing_counterexample :
    (forward sampleLayer3 [1, 2, 3, 4] MemoryState.INITIALIZING).map (fun r => r.2.memory)
        = Except.ok (some [3, 4]) ∧
      (some [3, 4] : Option (List ℕ)) ≠ Option.none := by
  exact ⟨rfl, by decide⟩

/-- C3 witness: the amended theorem applied at the concrete layer. -/
theorem forward_stores_trailing_witness :
    ∃ out L1, forward sampleLayer3 [1, 2, 3, 4] MemoryState.INITIALIZING
        = Except.ok (out, L1) ∧
      L1.memory = (if sampleLayer3.kernel_size = sampleLayer3.stride then Option.none
        else some (lastN (sampleLayer3.kernel_size - sampleLayer3.stride)
          (extended_input (forward_entry sampleLayer3 MemoryState.INITIALIZING)
            [1, 2, 3, 4] MemoryState.INITIALIZING))) :=
  forward_stores_trailing sampleLayer3 [1, 2, 3, 4] MemoryState.INITIALIZING
    (by decide) (by decide) rfl rfl (by decide)

/- ### C4: when the stored cache is read -/

/-- C4 (amended): an ACTIVE call with a stored cache prepends the cache to
the input in place of synthetic first-frame duplication, and the output is
the dense convolution of that cache-prepended input. -/
theorem forward_active_reads_cache (L : CausalConvLayer α β) (input m : List α)
    (hm : L.memory = some m) :
    ∃ out L1, forward L input MemoryState.ACTIVE = Except.ok (out, L1) ∧
      extended_input L input MemoryState.ACTIVE = m ++ input ∧
      out = convForward L (m ++ input) := by
  have hentry : forward_entry L MemoryState.ACTIVE = L := by
    unfold forward_entry
    simp
  have hext : extended_input L input MemoryState.ACTIVE = m ++ input := by
    unfold extended_input
    rw [if_pos ⟨by rw [hm]; rfl, rfl⟩, hm]
    rfl
  refine ⟨(basic_forward L input MemoryState.ACTIVE).1,
    (basic_forward L input MemoryState.ACTIVE).2, ?_, hext, ?_⟩
  · unfold forward
    rw [if_neg (by decide), hentry]
  · show (basic_forward L input MemoryState.ACTIVE).1 = _
    unfold basic_forward
    dsimp only
    rw [hext]

/-- The concrete layer with a stored boundary cache [9, 9]. -/
def sampleLayer4 : CausalConvLayer ℕ (List ℕ) :=
  { sampleLayer3 with memory := some [9, 9] }

/-- C4 counterexample: an INITIALIZING call with a stored cache and enabled
memory device does not read the cache — `forward` clears it on entry and the
input is extended by synthetic first-frame duplication, so the output is the
windows of [1,1,1,2] rather than of the cache-prepended [9,9,1,2]. -/
theorem forward_init_ignores_cache_counterexample :
    (forward sampleLayer4 [1, 2] MemoryState.INITIALIZING).map (fun r => r.1)
        = Except.ok [[1, 1, 1], [1, 1, 2]] ∧
      [[1, 1, 1], [1, 1, 2]] ≠ convForward sampleLayer4 ([9, 9] ++ [1, 2]) := by
  exact ⟨rfl, by decide⟩

/-- C4 witness: the amended theorem applied at the concrete layer. -/
theorem forward_active_reads_cache_witness :
    ∃ out L1, forward sampleLayer4 [1, 2] MemoryState.ACTIVE = Except.ok (out, L1) ∧
      extended_input sampleLayer4 [1, 2] MemoryState.ACTIVE = [9, 9] ++ [1, 2] ∧
      out = convForward sampleLayer4 ([9, 9] ++ [1, 2]) :=
  forward_active_reads_cache sampleLayer4 [1, 2] [9, 9] rfl

/- ### C5: what a DISABLED call does to the cache -/

/-- C5 (amended): a DISABLED call never reads the stored cache — its output
is the dense convolution of the synthetically extended input, independent of
any stored cache — and stores no captured slice; however it clears the
stored cache field to empty on entry (rather than leaving it unchanged). -/
theorem forward_disabled_frame (L : CausalConvLayer α β) (input : List α) :
    ∃ out L1, forward L input MemoryState.DISABLED = Except.ok (out, L1) ∧
      out = convForward L
        (extend_head input ((L.temporal_padding * 2 : ℕ) : ℤ) Option.none) ∧
      L1.memory = Option.none ∧
      (∀ M : Option (List α),
        (forward { L with memory := M } input MemoryState.DISABLED).map (fun r => r.1)
          = Except.ok out) := by
  refine ⟨convForward L (extend_head input ((L.temporal_padding * 2 : ℕ) : ℤ) Option.none),
    (basic_forward (forward_entry L MemoryState.DISABLED) input MemoryState.DISABLED).2,
    ?_, rfl, ?_, ?_⟩
  · rfl
  · rfl
  · intro M
    rfl

/-- C5 counterexample: a DISABLED call does not leave the stored cache field
unchanged — the stored cache [9, 9] is cleared to empty on entry. -/
theorem forward_disabled_clears_counterexample :
    (forward sampleLayer4 [1, 2] MemoryState.DISABLED).map (fun r => r.2.memory)
        = Except.ok Option.none ∧
      (Option.none : Option (List ℕ)) ≠ sampleLayer4.memory := by
  exact ⟨rfl, by decide⟩

/- ### C2: streaming equivalence

Processing a sequence of chunks with INITIALIZING on the first and ACTIVE on
the rest, the boundary cache carried in the layer state between calls. -/

/-- Sequentially feed chunks through the layer, first with the given state,
subsequent chunks with ACTIVE, concatenating the outputs. -/
def forward_seq (L : CausalConvLayer α β) (chunks : List (List α)) (st : MemoryState) :
    Except String (List β × CausalConvLayer α β) :=
  match chunks with
  | [] => Except.ok ([], L)
  | c :: cs => do
    let r ← forward L c st
    let rest ← forward_seq r.2 cs MemoryState.ACTIVE
    Except.ok (r.1 ++ rest.1, rest.2)

theorem numWin_one (k n : ℕ) (hk : 1 ≤ k) : numWin k 1 n = n + 1 - k := by
  unfold numWin
  split <;> omega

theorem windows_length (k s : ℕ) (l : List α) :
    (windows k s l).length = numWin k s l.length := by
  simp [windows]

theorem windows_drop_one (k : ℕ) (hk : 1 ≤ k) (l : List α) :
    windows k 1 (l.drop 1) = (windows k 1 l).drop 1 := by
  unfold windows
  rw [numWin_one _ _ hk, numWin_one _ _ hk]
  by_cases hkl : k ≤ l.length
  · have h1 : l.length + 1 - k = (l.length - k) + 1 := by omega
    have h3 : (l.drop 1).length + 1 - k = l.length - k := by
      simp only [List.length_drop]; omega
    rw [h1, h3, List.range_succ_eq_map]
    rw [List.map_cons, List.map_map]
    simp only [List.drop_succ_cons, List.drop_zero]
    apply List.map_congr_left
    intro i _
    simp only [Function.comp, Nat.mul_one]
    rw [List.drop_drop]
    have hadd : 1 + i = i.succ := by omega
    rw [hadd]
  · have h2 : (l.drop 1).length + 1 - k = 0 := by
      simp only [List.length_drop]; omega
    rw [h2]
    have h3 : l.length + 1 - k = 0 ∨ l.length + 1 - k = 1 := by omega
    rcases h3 with h3 | h3 <;> rw [h3] <;> simp [List.range_succ]

theorem windows_drop (k : ℕ) (hk : 1 ≤ k) (d : ℕ) (l : List α) :
    windows k 1 (l.drop d) = (windows k 1 l).drop d := by
  induction d generalizing l with
  | zero => simp
  | succ d ih =>
    have h1 : l.drop (d + 1) = (l.drop 1).drop d := by
      rw [List.drop_drop]
      congr 1
      omega
    rw [h1, ih, windows_drop_one _ hk, List.drop_drop]
    congr 1
    omega

theorem windows_take (k : ℕ) (hk : 1 ≤ k) (x y : List α) :
    windows k 1 x = (windows k 1 (x ++ y)).take (x.length + 1 - k) := by
  unfold windows
  rw [numWin_one _ _ hk, numWin_one _ _ hk]
  rw [← List.map_take, List.take_range]
  have hmin : min (x.length + 1 - k) ((x ++ y).length + 1 - k) = x.length + 1 - k := by
    simp only [List.length_append]
    omega
  rw [hmin]
  apply List.map_congr_left
  intro i hi
  rw [List.mem_range] at hi
  have hik : i + k ≤ x.length := by omega
  rw [Nat.mul_one, List.drop_append_eq_append_drop]
  have h2 : i - x.length = 0 := by omega
  rw [h2, List.drop_zero]
  rw [List.take_append_eq_append_take]
  have h3 : (x.drop i).length = x.length - i := by simp
  have h4 : k - (x.drop i).length = 0 := by rw [h3]; omega
  rw [h4, List.take_zero, List.append_nil]

theorem lastN_append_eq_drop (n : ℕ) (a b : List α) (h : n ≤ a.length) :
    lastN n a ++ b = (a ++ b).drop (a.length - n) := by
  unfold lastN
  rw [List.drop_append_eq_append_drop]
  have h2 : a.length - n - a.length = 0 := by omega
  rw [h2, List.drop_zero]

theorem lastN_lastN_append (n : ℕ) (a b : List α) (h : n ≤ a.length) :
    lastN n (lastN n a ++ b) = lastN n (a ++ b) := by
  unfold lastN
  have hlen : (a.drop (a.length - n)).length = n := by
    simp only [List.length_drop]; omega
  rw [List.drop_append_eq_append_drop, List.drop_append_eq_append_drop]
  simp only [List.length_append, hlen, List.length_drop]
  rw [List.drop_drop]
  congr 2 <;> omega

theorem take_drop_append_drop (m M : ℕ) (h : m ≤ M) (W : List γ) :
    (W.take M).drop m ++ W.drop M = W.drop m := by
  rw [List.drop_take]
  have h2 : W.drop M = (W.drop m).drop (M - m) := by
    rw [List.drop_drop]
    congr 1
    omega
  rw [h2, List.take_append_drop]

/-- The one-axis streaming step: the windows of a cache-extended chunk,
followed by the remaining windows of the whole sequence, are exactly the
windows of the whole sequence from this chunk's first window on
(temporal stride 1, cache of length `k - 1`). -/
theorem windows_stream_assemble (k : ℕ) (hk : 1 ≤ k) (a b r : List α)
    (ha : k - 1 ≤ a.length) (f : List α → β) :
    ((windows k 1 (lastN (k - 1) a ++ b)).map f) ++
      ((windows k 1 ((a ++ b) ++ r)).map f).drop (a.length + b.length + 1 - k)
    = ((windows k 1 ((a ++ b) ++ r)).map f).drop (a.length + 1 - k) := by
  have h1 : lastN (k - 1) a ++ b = (a ++ b).drop (a.length + 1 - k) := by
    rw [lastN_append_eq_drop _ _ _ ha]
    congr 1
    omega
  rw [h1, windows_drop _ hk]
  rw [windows_take k hk (a ++ b) r]
  rw [List.map_drop, List.map_take]
  have h2 : (a ++ b).length + 1 - k = a.length + b.length + 1 - k := by
    simp only [List.length_append]
  rw [h2]
  exact take_drop_append_drop _ _ (by omega) _

/-- One ACTIVE step of `basic_forward` on a stride-1 layer holding a cache:
the cache is prepended, the convolution runs on the extension, and the new
cache is the trailing `kernel - 1` frames of the extension. -/
theorem basic_forward_active_step (k tp : ℕ) (dv : MemoryDevice) (f : List α → β)
    (hk : 2 ≤ k) (m c : List α) :
    basic_forward (⟨k, 1, tp, false, some dv, some m, f⟩ : CausalConvLayer α β)
        c MemoryState.ACTIVE
      = ((windows k 1 (m ++ c)).map f,
         ⟨k, 1, tp, false, some dv, some (lastN (k - 1) (m ++ c)), f⟩) := by
  unfold basic_forward
  dsimp only
  have hneg : ((1 : ℕ) : ℤ) - (k : ℤ) < 0 := by omega
  have hcond : (((1 : ℕ) : ℤ) - (k : ℤ) ≠ 0 ∧
      MemoryState.ACTIVE ≠ MemoryState.DISABLED) := ⟨by omega, by decide⟩
  rw [if_pos hcond]
  have hext : extended_input (⟨k, 1, tp, false, some dv, some m, f⟩ : CausalConvLayer α β)
      c MemoryState.ACTIVE = m ++ c := rfl
  rw [hext]
  rw [if_pos (show MemoryState.ACTIVE ≠ MemoryState.DISABLED ∧ false = false ∧
      (some dv).isSome from ⟨by decide, rfl, rfl⟩)]
  rw [pySliceFrom_neg _ _ hneg]
  have habs : (((1 : ℕ) : ℤ) - (k : ℤ)).natAbs = k - 1 := by omega
  rw [habs]
  rfl

/-- One INITIALIZING step of `basic_forward` on a stride-1 layer with no
cache: the head is synthetically extended, and the new cache is the trailing
`kernel - 1` frames of the extension. -/
theorem basic_forward_init_step (k tp : ℕ) (dv : MemoryDevice) (f : List α → β)
    (hk : 2 ≤ k) (c : List α) :
    basic_forward (⟨k, 1, tp, false, some dv, Option.none, f⟩ : CausalConvLayer α β)
        c MemoryState.INITIALIZING
      = ((windows k 1 (extend_head c ((tp * 2 : ℕ) : ℤ) Option.none)).map f,
         ⟨k, 1, tp, false, some dv,
           some (lastN (k - 1) (extend_head c ((tp * 2 : ℕ) : ℤ) Option.none)), f⟩) := by
  unfold basic_forward
  dsimp only
  have hneg : ((1 : ℕ) : ℤ) - (k : ℤ) < 0 := by omega
  have hcond : (((1 : ℕ) : ℤ) - (k : ℤ) ≠ 0 ∧
      MemoryState.INITIALIZING ≠ MemoryState.DISABLED) := ⟨by omega, by decide⟩
  rw [if_pos hcond]
  have hext : extended_input (⟨k, 1, tp, false, some dv, Option.none, f⟩ :
      CausalConvLayer α β) c MemoryState.INITIALIZING
      = extend_head c ((tp * 2 : ℕ) : ℤ) Option.none := rfl
  rw [hext]
  rw [if_pos (show MemoryState.INITIALIZING ≠ MemoryState.DISABLED ∧ false = false ∧
      (some dv).isSome from ⟨by decide, rfl, rfl⟩)]
  rw [pySliceFrom_neg _ _ hneg]
  have habs : (((1 : ℕ) : ℤ) - (k : ℤ)).natAbs = k - 1 := by omega
  rw [habs]
  rfl

theorem forward_seq_cons (L : CausalConvLayer α β) (c : List α) (cs : List (List α))
    (st : MemoryState) :
    forward_seq L (c :: cs) st
      = (forward L c st).bind fun r =>
          (forward_seq r.2 cs MemoryState.ACTIVE).bind fun rest =>
            Except.ok (r.1 ++ rest.1, rest.2) := rfl

theorem except_ok_bind (a : γ) (g : γ → Except ε δ) :
    (Except.ok a : Except ε γ).bind g = g a := rfl

/-- The streaming invariant: feeding further chunks with ACTIVE state to a
stride-1 layer whose cache is the trailing `kernel - 1` frames of the
already-processed prefix produces exactly the remaining windows of the whole
sequence, and leaves the cache at the trailing frames of the whole. -/
theorem forward_seq_active_inv (k tp : ℕ) (dv : MemoryDevice) (f : List α → β)
    (hk : 2 ≤ k) (cs : List (List α)) :
    ∀ pre : List α, k - 1 ≤ pre.length →
    forward_seq (⟨k, 1, tp, false, some dv, some (lastN (k - 1) pre), f⟩ :
        CausalConvLayer α β) cs MemoryState.ACTIVE
      = Except.ok
          ((((windows k 1 (pre ++ cs.flatten)).map f).drop (pre.length + 1 - k)),
           ⟨k, 1, tp, false, some dv, some (lastN (k - 1) (pre ++ cs.flatten)), f⟩) := by
  induction cs with
  | nil =>
    intro pre hpre
    have hlen : (((windows k 1 (pre ++ List.flatten [])).map f)).length
        = pre.length + 1 - k := by
      rw [List.length_map, windows_length, numWin_one _ _ (by omega)]
      simp
    rw [show forward_seq (⟨k, 1, tp, false, some dv, some (lastN (k - 1) pre), f⟩ :
        CausalConvLayer α β) [] MemoryState.ACTIVE
      = Except.ok ([], ⟨k, 1, tp, false, some dv, some (lastN (k - 1) pre), f⟩) from rfl]
    rw [List.drop_eq_nil_of_le (le_of_eq hlen)]
    simp
  | cons c cs ih =>
    intro pre hpre
    have hfwd : forward (⟨k, 1, tp, false, some dv, some (lastN (k - 1) pre), f⟩ :
        CausalConvLayer α β) c MemoryState.ACTIVE
        = Except.ok ((windows k 1 (lastN (k - 1) pre ++ c)).map f,
            ⟨k, 1, tp, false, some dv, some (lastN (k - 1) (pre ++ c)), f⟩) := by
      unfold forward
      rw [if_neg (by decide)]
      have hentry : forward_entry (⟨k, 1, tp, false, some dv, some (lastN (k - 1) pre), f⟩ :
          CausalConvLayer α β) MemoryState.ACTIVE
          = ⟨k, 1, tp, false, some dv, some (lastN (k - 1) pre), f⟩ := rfl
      rw [hentry, basic_forward_active_step k tp dv f hk _ c]
      rw [lastN_lastN_append _ _ _ (by omega)]
    rw [forward_seq_cons, hfwd, except_ok_bind]
    rw [ih (pre ++ c) (by simp; omega), except_ok_bind]
    rw [List.flatten_cons, ← List.append_assoc]
    have hout := windows_stream_assemble k (by omega) pre c cs.flatten hpre f
    simp only [List.length_append] at hout ⊢
    rw [hout]

theorem except_ok_map (a : γ) (g : γ → δ) :
    (Except.ok a : Except ε γ).map g = Except.ok (g a) := rfl

/-- C2 (amended): for a layer with temporal stride 1, temporal kernel at
least 2, eval mode and an enabled memory device, feeding a sequence as one
full-length DISABLED call equals feeding it as chunks with INITIALIZING then
ACTIVE and the cache carried between calls — for every chunking whose first
chunk is nonempty with synthetic extension at least kernel-sized, and
whose later chunks are nonempty (so every underlying dense conv call is
well-posed).  The original claim, quantifying over all strides and
chunkings, is refuted by `streaming_equivalence_counterexample`. -/
theorem streaming_equivalence (k tp : ℕ) (dv : MemoryDevice) (f : List α → β)
    (M0 : Option (List α)) (c0 : List α) (cs : List (List α))
    (hk : 2 ≤ k) (h0 : k ≤ 2 * tp + c0.length) (h0ne : c0 ≠ [])
    (hcs : ∀ c ∈ cs, c ≠ []) :
    (forward_seq (⟨k, 1, tp, false, some dv, M0, f⟩ : CausalConvLayer α β)
        (c0 :: cs) MemoryState.INITIALIZING).map (fun r => r.1)
      = (forward (⟨k, 1, tp, false, some dv, M0, f⟩ : CausalConvLayer α β)
          (c0 :: cs).flatten MemoryState.DISABLED).map (fun r => r.1) := by
  rcases c0 with _ | ⟨x0, t0⟩
  · exact absurd rfl h0ne
  have hE1 : extend_head (x0 :: t0) ((tp * 2 : ℕ) : ℤ) Option.none
      = List.replicate (tp * 2) x0 ++ (x0 :: t0) := extend_head_cons x0 t0 (tp * 2)
  have hfwd1 : forward (⟨k, 1, tp, false, some dv, M0, f⟩ : CausalConvLayer α β)
      (x0 :: t0) MemoryState.INITIALIZING
      = Except.ok
          ((windows k 1 (extend_head (x0 :: t0) ((tp * 2 : ℕ) : ℤ) Option.none)).map f,
           ⟨k, 1, tp, false, some dv,
             some (lastN (k - 1) (extend_head (x0 :: t0) ((tp * 2 : ℕ) : ℤ) Option.none)),
             f⟩) := by
    unfold forward
    rw [if_neg (by decide)]
    have hentry : forward_entry (⟨k, 1, tp, false, some dv, M0, f⟩ : CausalConvLayer α β)
        MemoryState.INITIALIZING = ⟨k, 1, tp, false, some dv, Option.none, f⟩ := rfl
    rw [hentry, basic_forward_init_step k tp dv f hk (x0 :: t0)]
  have hlen : k - 1 ≤ (extend_head (x0 :: t0) ((tp * 2 : ℕ) : ℤ) Option.none).length := by
    rw [hE1]
    simp only [List.length_cons] at h0
    simp only [List.length_append, List.length_replicate, List.length_cons]
    omega
  rw [forward_seq_cons, hfwd1, except_ok_bind]
  rw [forward_seq_active_inv k tp dv f hk cs _ hlen, except_ok_bind]
  have hfwdD : forward (⟨k, 1, tp, false, some dv, M0, f⟩ : CausalConvLayer α β)
      ((x0 :: t0) :: cs).flatten MemoryState.DISABLED
      = Except.ok
          ((windows k 1 (extend_head (((x0 :: t0) :: cs).flatten)
              ((tp * 2 : ℕ) : ℤ) Option.none)).map f,
           ⟨k, 1, tp, false, some dv, Option.none, f⟩) := rfl
  rw [hfwdD, except_ok_map, except_ok_map]
  congr 1
  have hflat : ((x0 :: t0) :: cs).flatten = (x0 :: t0) ++ cs.flatten := List.flatten_cons
  rw [hflat]
  have hEfull : extend_head ((x0 :: t0) ++ cs.flatten) ((tp * 2 : ℕ) : ℤ) Option.none
      = extend_head (x0 :: t0) ((tp * 2 : ℕ) : ℤ) Option.none ++ cs.flatten := by
    rw [List.cons_append, extend_head_cons, hE1]
    rw [List.append_assoc, List.cons_append]
  rw [hEfull]
  rw [windows_take k (by omega) (extend_head (x0 :: t0) ((tp * 2 : ℕ) : ℤ) Option.none)
    cs.flatten]
  rw [List.map_take]
  exact List.take_append_drop _ _

/-- A stride-2 layer for the streaming counterexample: temporal kernel 3,
stride 2, temporal padding 1, eval mode, enabled memory device, identity
window aggregation. -/
def sampleLayerStride2 : CausalConvLayer ℕ (List ℕ) where
  kernel_size := 3
  stride := 2
  temporal_padding := 1
  training := false
  memory_device := some MemoryDevice.same
  memory := Option.none
  kernelApply := id

/-- C2 counterexample: with temporal stride 2, the 4-frame sequence
[0,1,2,3] processed as one DISABLED call yields the windows [0,0,0] and
[0,1,2] of the extended input [0,0,0,1,2,3], but processed as chunks [0,1]
then [2,3] with INITIALIZING then ACTIVE and the cache carried, it yields
[0,0,0] and [1,2,3]: the boundary cache of fixed length kernel - stride
cannot reproduce the stride phase across the chunk boundary. -/
theorem streaming_equivalence_counterexample :
    (forward sampleLayerStride2 [0, 1, 2, 3] MemoryState.DISABLED).map (fun r => r.1)
        = Except.ok [[0, 0, 0], [0, 1, 2]] ∧
      (forward_seq sampleLayerStride2 [[0, 1], [2, 3]] MemoryState.INITIALIZING).map
          (fun r => r.1)
        = Except.ok [[0, 0, 0], [1, 2, 3]] ∧
      ([[0, 0, 0], [0, 1, 2]] : List (List ℕ)) ≠ [[0, 0, 0], [1, 2, 3]] := by
  refine ⟨rfl, rfl, by decide⟩

/-- C2 witness: the amended streaming theorem applied to the 17-frame
sequence of the spec's example, split as 9 then 8 frames, on a stride-1
layer with kernel 3 and temporal padding 1. -/
theorem streaming_equivalence_witness :
    (forward_seq (⟨3, 1, 1, false, some MemoryDevice.same, Option.none, id⟩ :
        CausalConvLayer ℕ (List ℕ))
        [[0, 1, 2, 3, 4, 5, 6, 7, 8], [9, 10, 11, 12, 13, 14, 15, 16]]
        MemoryState.INITIALIZING).map (fun r => r.1)
      = (forward (⟨3, 1, 1, false, some MemoryDevice.same, Option.none, id⟩ :
          CausalConvLayer ℕ (List ℕ))
          [[0, 1, 2, 3, 4, 5, 6, 7, 8], [9, 10, 11, 12, 13, 14, 15, 16]].flatten
          MemoryState.DISABLED).map (fun r => r.1) :=
  streaming_equivalence 3 1 MemoryDevice.same id Option.none
    [0, 1, 2, 3, 4, 5, 6, 7, 8] [[9, 10, 11, 12, 13, 14, 15, 16]]
    (by decide) (by decide) (by decide) (by decide)

/- ## InflatedCausalConv3d.memory_limit_conv (source lines 73-162)

The executor splits a 5-D tensor along torch dims 3 (height) then 4 (width);
torch dim 2 (time) is never split here but receives the caller's cache.  We
embed the three convolved axes as `Fin 3`, with axis 0 ↔ torch dim 2 (t),
axis 1 ↔ dim 3 (h), axis 2 ↔ dim 4 (w); batch and channel ride inside the
per-window aggregation function and contribute a constant factor `bc` to the
footprint estimate.  A tensor is its extents plus a total index valuation
(reads outside the extents are exercised by no in-range computation).

The `F.pad` 6-tuple (wl, wr, hl, hr, tl, tr) of the source is embedded as a
pair of left/right pad functions on axes; the source's `lpad_dim`/`rpad_dim`
index arithmetic selects exactly the two entries of the split axis, embedded
as `Function.update` at that axis.  `split_dim` is embedded by remaining
fuel: fuel 2 ↔ split_dim 3 (axis 1), fuel 1 ↔ split_dim 4 (axis 2), fuel 0 ↔
`split_dim == x.ndim` (unconditional base case).  Asserts are
`Except.error`.  The claims under study use finite memory limits, so the
`math.isinf` fast path of the source (which delegates to the module's own
symmetric padding) is outside this embedding. -/

/-- A dense tensor over the three convolved axes: extents plus valuation. -/
structure T3 where
  dims : Fin 3 → ℕ
  val : (Fin 3 → ℕ) → ℚ

/-- Extensional equality on the in-range part: same extents, same values at
every in-range position. -/
def T3.Eqv (x y : T3) : Prop :=
  x.dims = y.dims ∧ ∀ p : Fin 3 → ℕ, (∀ a, p a < x.dims a) → x.val p = y.val p

/-- Slice of extent `n` from offset `o` along axis `a` (torch narrow). -/
def slice3 (a : Fin 3) (o n : ℕ) (x : T3) : T3 :=
  ⟨Function.update x.dims a n, fun p => x.val (Function.update p a (o + p a))⟩

/-- Concatenation along axis `a` (torch.cat). -/
def cat3 (a : Fin 3) (u v : T3) : T3 :=
  ⟨Function.update u.dims a (u.dims a + v.dims a),
   fun p => if p a < u.dims a then u.val p
     else v.val (Function.update p a (p a - u.dims a))⟩

/-- Optional concatenation: the source's `if prev_cache is not None` concat. -/
def catOpt (a : Fin 3) (pc : Option T3) (x : T3) : T3 :=
  match pc with
  | some c => cat3 a c x
  | Option.none => x

/-- Zero padding by `pl` on the left and `pr` on the right of each axis
(F.pad with value 0.0). -/
def pad3 (pl pr : Fin 3 → ℕ) (x : T3) : T3 :=
  ⟨fun a => pl a + x.dims a + pr a,
   fun p => if ∀ a, pl a ≤ p a ∧ p a < pl a + x.dims a then
       x.val (fun a => p a - pl a)
     else 0⟩

/-- The trailing `n` entries along axis `a`
(`x.transpose(0, d)[-n:].transpose(0, d)` in the source). -/
def last3 (a : Fin 3) (n : ℕ) (x : T3) : T3 :=
  slice3 a (x.dims a - n) n x

/-- Split into consecutive slices of the given sizes from offset `o`
(torch split). -/
def split3 (a : Fin 3) (x : T3) : List ℕ → ℕ → List T3
  | [], _ => []
  | n :: rest, o => slice3 a o n x :: split3 a x rest (o + n)

/-- Concatenate a list of tensors along axis `a` (torch.cat on a list). -/
def catList (a : Fin 3) : List T3 → T3
  | [] => ⟨fun _ => 0, fun _ => 0⟩
  | [x] => x
  | x :: rest => cat3 a x (catList a rest)

/-- The convolution module as the executor sees it: per-axis kernel and
stride, the module padding field (whose temporal entry the constructor
zeroes), the dense per-window kernel application `g` standing for the
channel-mixing arithmetic, and the footprint parameters. -/
structure ConvSpec where
  kernel : Fin 3 → ℕ
  stride : Fin 3 → ℕ
  modpad : Fin 3 → ℕ
  g : (((a : Fin 3) → Fin (kernel a)) → ℚ) → ℚ
  bc : ℕ
  esize : ℕ
  memory_limit : ℚ

/-- The dense convolution primitive with no built-in padding (the base case
runs `super().forward` under `ignore_padding`): output position `p` reads
the window starting at `p * stride`. -/
def conv3 (C : ConvSpec) (x : T3) : T3 :=
  ⟨fun a => numWin (C.kernel a) (C.stride a) (x.dims a),
   fun p => C.g (fun off => x.val (fun b => p b * C.stride b + (off b : ℕ)))⟩

/-- Modelled from the spec: `get_cache_size` (from context_parallel_lib,
which is not among the sources) with the kernel and stride entries of the
queried dim already selected.  Per the spec it sizes the boundary slice
"so that the next chunk's computation sees exactly the overlap the
convolution's kernel/stride geometry requires for correctness": the input
positions not consumed by this chunk's windows. -/
def get_cache_size (k s input_len pad_len : ℕ) : ℕ :=
  input_len + pad_len - s * numWin k s (input_len + pad_len)

/-- The extent of an optional cache tensor along an axis (0 when absent). -/
def cacheDim (a : Fin 3) : Option T3 → ℕ
  | some cc => cc.dims a
  | Option.none => 0

/-- The per-chunk loop of `memory_limit_conv` ("Loop Fwd"): concatenate the
split prev-cache piece on the previous axis, give the module padding to the
first chunk's left edge and the last chunk's right edge only, hand each
chunk the boundary slice of its predecessor, recurse one axis finer, and
collect the outputs. -/
def chunkLoop (C : ConvSpec) (ax axm1 : Fin 3)
    (rec_fn : T3 → (Fin 3 → ℕ) × (Fin 3 → ℕ) → Option T3 → Except String T3)
    (pl pr : Fin 3 → ℕ) :
    Bool → Option T3 → List (T3 × Option T3) → Except String (List T3)
  | _, _, [] => Except.ok []
  | first, cache, (x0, pc0) :: rest =>
    let xi := catOpt axm1 pc0 x0
    let lp := if first then C.modpad ax else 0
    let rp := if rest.isEmpty then C.modpad ax else 0
    let cache_len := cacheDim ax cache
    let ncs := get_cache_size (C.kernel ax) (C.stride ax) (xi.dims ax + cache_len) (lp + rp)
    if ncs ≠ 0 ∧ ¬ (ncs ≤ xi.dims ax) then
      Except.error "AssertionError: next cache exceeds chunk extent"
    else
      let next_cache := if ncs ≠ 0 then some (last3 ax ncs xi) else Option.none
      (rec_fn xi (Function.update pl ax lp, Function.update pr ax rp) cache).bind fun yi =>
        (chunkLoop C ax axm1 rec_fn pl pr false next_cache rest).bind fun ys =>
          Except.ok (yi :: ys)

/-- The memory-occupancy estimate: the shape after the previous-axis cache
concat and the padding, multiplied out with the batch/channel product `bc`
and the element size, in GiB (`shape.prod() * x.element_size() / 1024**3`). -/
def memOcc (C : ConvSpec) (axm1 : Fin 3) (x : T3) (pl pr : Fin 3 → ℕ)
    (pc : Option T3) : ℚ :=
  let sh : Fin 3 → ℕ := fun a =>
    x.dims a + (if a = axm1 then cacheDim axm1 pc else 0) + pl a + pr a
  ((C.bc * (sh 0 * (sh 1 * sh 2)) * C.esize : ℕ) : ℚ) / 1024 ^ 3

/-- The split-size list: `num_splits - 1` equal pieces of the integer
quotient, then the remainder piece. -/
def mlcSizes (d num_splits : ℕ) : List ℕ :=
  List.replicate (num_splits - 1) (d / num_splits)
    ++ [d - (num_splits - 1) * (d / num_splits)]

/-- The per-chunk previous-cache pieces: the prev-cache split by the same
sizes when present, else no cache for every chunk. -/
def mlcPcs (ax : Fin 3) (sizes : List ℕ) (pc : Option T3) (len : ℕ) :
    List (Option T3) :=
  match pc with
  | some pcc => (split3 ax pcc sizes 0).map some
  | Option.none => List.replicate len Option.none

/-- Source `memory_limit_conv` with a finite memory limit.  `fuel` is
`x.ndim - split_dim`: fuel 0 is the `split_dim == x.ndim` stop, fuel 2 the
entry point from `slicing_forward` (split_dim 3). -/
def memory_limit_conv (C : ConvSpec) :
    ℕ → T3 → (Fin 3 → ℕ) × (Fin 3 → ℕ) → Option T3 → Except String T3
  | 0, x, padding, prev_cache =>
    Except.ok (conv3 C (pad3 padding.1 padding.2 (catOpt 2 prev_cache x)))
  | fuel + 1, x, padding, prev_cache =>
    let ax : Fin 3 := if fuel = 0 then 2 else 1
    let axm1 : Fin 3 := if fuel = 0 then 1 else 0
    let memory_occupy := memOcc C axm1 x padding.1 padding.2 prev_cache
    if memory_occupy < C.memory_limit then
      Except.ok (conv3 C (pad3 padding.1 padding.2 (catOpt axm1 prev_cache x)))
    else
      let num_splits := (memory_occupy / C.memory_limit).ceil.toNat
      let split_sizes := mlcSizes (x.dims ax) num_splits
      let xs := split3 ax x split_sizes 0
      let pcs := mlcPcs ax split_sizes prev_cache xs.length
      (chunkLoop C ax axm1 (memory_limit_conv C fuel) padding.1 padding.2
        true Option.none (xs.zip pcs)).map (catList ax)

/-- The direct, unsplit computation the spec compares against: concatenate
the cache on the previous axis, apply the full padding, convolve once. -/
def directConv (C : ConvSpec) (axm1 : Fin 3) (pl pr : Fin 3 → ℕ)
    (prev_cache : Option T3) (x : T3) : T3 :=
  conv3 C (pad3 pl pr (catOpt axm1 prev_cache x))

/- ### Window-count arithmetic for the split proof -/

theorem s_mul_numWin_le (k s L : ℕ) (hs : 1 ≤ s) (hks : s ≤ k) :
    s * numWin k s L ≤ L := by
  unfold numWin
  split
  · have h1 : (L - k) / s * s ≤ L - k := Nat.div_mul_le_self _ _
    have h2 : s * ((L - k) / s + 1) = (L - k) / s * s + s := by ring
    omega
  · omega

theorem numWin_window_bound (k s n j : ℕ) (hj : j < numWin k s n) : j * s + k ≤ n := by
  unfold numWin at hj
  split at hj
  · have h1 : j ≤ (n - k) / s := by omega
    have h2 : j * s ≤ (n - k) / s * s := Nat.mul_le_mul_right _ h1
    have h3 : (n - k) / s * s ≤ n - k := Nat.div_mul_le_self _ _
    omega
  · omega

theorem numWin_chunk_split (k s L M : ℕ) (hs : 1 ≤ s) (hks : s ≤ k) (hLM : L ≤ M) :
    numWin k s M = numWin k s L + numWin k s (M - s * numWin k s L) := by
  by_cases hkL : k ≤ L
  · have hkM : k ≤ M := le_trans hkL hLM
    obtain ⟨n, hn⟩ : ∃ n, numWin k s L = n := ⟨_, rfl⟩
    rw [hn]
    have hnL : n = (L - k) / s + 1 := by rw [← hn]; unfold numWin; rw [if_pos hkL]
    have hnM : numWin k s M = (M - k) / s + 1 := by unfold numWin; rw [if_pos hkM]
    have hsn : s * n ≤ L := by rw [← hn]; exact s_mul_numWin_le k s L hs hks
    by_cases hrest : s * n + k ≤ M
    · have hnR : numWin k s (M - s * n) = (M - s * n - k) / s + 1 := by
        unfold numWin
        rw [if_pos (by omega)]
      have hM : M - k = (M - s * n - k) + s * n := by omega
      rw [hnM, hnR, hM, Nat.add_mul_div_left _ _ (show 0 < s by omega)]
      omega
    · have hnR : numWin k s (M - s * n) = 0 := by
        unfold numWin
        rw [if_neg (by omega)]
      have hle : (L - k) / s ≤ (M - k) / s := Nat.div_le_div_right (by omega)
      have hlt : (M - k) / s < (L - k) / s + 1 := by
        rw [Nat.div_lt_iff_lt_mul (show 0 < s by omega)]
        have hsn2 : s * n = ((L - k) / s + 1) * s := by rw [hnL]; ring
        omega
      rw [hnM, hnR]
      omega
  · have hnL : numWin k s L = 0 := by unfold numWin; rw [if_neg hkL]
    rw [hnL]
    simp

/- ### Slice correspondence -/

/-- `X` is the slice of `G` along axis `a` starting at `off`: other extents
agree, the slice fits, and in-range values agree after shifting axis `a`. -/
def SliceEqv (a : Fin 3) (off : ℕ) (X G : T3) : Prop :=
  (∀ b, b ≠ a → X.dims b = G.dims b) ∧ off + X.dims a ≤ G.dims a ∧
  ∀ p : Fin 3 → ℕ, (∀ b, p b < X.dims b) →
    X.val p = G.val (Function.update p a (off + p a))

theorem SliceEqv_of_Eqv (a : Fin 3) (o : ℕ) (y X G : T3)
    (hy : T3.Eqv y X) (hX : SliceEqv a o X G) : SliceEqv a o y G := by
  obtain ⟨hyd, hyv⟩ := hy
  obtain ⟨h1, h2, h3⟩ := hX
  refine ⟨fun b hb => by rw [hyd]; exact h1 b hb, by rw [hyd]; exact h2, ?_⟩
  intro p hp
  have hp2 : ∀ b, p b < X.dims b := fun b => by rw [← hyd]; exact hp b
  rw [hyv p hp, h3 p hp2]

theorem SliceEqv_slice (a : Fin 3) (q m n : ℕ) (X A : T3)
    (hX : SliceEqv a q X A) (hmn : m + n ≤ X.dims a) :
    SliceEqv a (q + m) (slice3 a m n X) A := by
  obtain ⟨h1, h2, h3⟩ := hX
  refine ⟨?_, ?_, ?_⟩
  · intro b hb
    simp only [slice3, Function.update_noteq hb]
    exact h1 b hb
  · simp only [slice3, Function.update_same]
    omega
  · intro p hp
    have hpa : p a < n := by
      have := hp a
      simpa [slice3] using this
    have hpb : ∀ b, b ≠ a → p b < X.dims b := by
      intro b hb
      have := hp b
      simpa [slice3, Function.update_noteq hb] using this
    show X.val (Function.update p a (m + p a)) = _
    rw [h3 (Function.update p a (m + p a)) ?_]
    · congr 1
      funext b
      by_cases hb : b = a
      · subst hb
        simp only [Function.update_same]
        omega
      · simp only [Function.update_noteq hb]
    · intro b
      by_cases hb : b = a
      · subst hb
        simp only [Function.update_same]
        omega
      · simp only [Function.update_noteq hb]
        exact hpb b hb

theorem conv3_SliceEqv (C : ConvSpec) (a : Fin 3) (o : ℕ) (I G : T3)
    (hIG : SliceEqv a (C.stride a * o) I G)
    (hbound : o + numWin (C.kernel a) (C.stride a) (I.dims a)
      ≤ numWin (C.kernel a) (C.stride a) (G.dims a)) :
    SliceEqv a o (conv3 C I) (conv3 C G) := by
  obtain ⟨h1, h2, h3⟩ := hIG
  refine ⟨?_, ?_, ?_⟩
  · intro b hb
    simp only [conv3]
    rw [h1 b hb]
  · simpa [conv3] using hbound
  · intro p hp
    simp only [conv3]
    congr 1
    funext off
    rw [h3 (fun b => p b * C.stride b + (off b : ℕ)) ?_]
    · congr 1
      funext b
      by_cases hb : b = a
      · subst hb
        simp only [Function.update_same]
        ring
      · simp only [Function.update_noteq hb]
    · intro b
      show p b * C.stride b + (off b : ℕ) < I.dims b
      have hpb : p b < numWin (C.kernel b) (C.stride b) (I.dims b) := by
        have := hp b
        simpa [conv3] using this
      have := numWin_window_bound (C.kernel b) (C.stride b) (I.dims b) (p b) hpb
      have hoffb : (off b : ℕ) < C.kernel b := (off b).isLt
      omega

theorem cat_SliceEqv (a : Fin 3) (qc : ℕ) (cc X A : T3)
    (h1 : SliceEqv a qc cc A) (h2 : SliceEqv a (qc + cc.dims a) X A) :
    SliceEqv a qc (cat3 a cc X) A := by
  obtain ⟨h11, h12, h13⟩ := h1
  obtain ⟨h21, h22, h23⟩ := h2
  refine ⟨?_, ?_, ?_⟩
  · intro b hb
    simp only [cat3, Function.update_noteq hb]
    exact h11 b hb
  · simp only [cat3, Function.update_same]
    omega
  · intro p hp
    have hpa : p a < cc.dims a + X.dims a := by
      have := hp a
      simpa [cat3] using this
    have hpb : ∀ b, b ≠ a → p b < cc.dims b := by
      intro b hb
      have := hp b
      simpa [cat3, Function.update_noteq hb] using this
    simp only [cat3]
    by_cases hc : p a < cc.dims a
    · rw [if_pos hc]
      exact h13 p fun b => by
        by_cases hb : b = a
        · subst hb; exact hc
        · exact hpb b hb
    · rw [if_neg hc]
      rw [h23 (Function.update p a (p a - cc.dims a)) ?_]
      · congr 1
        funext b
        by_cases hb : b = a
        · subst hb
          simp only [Function.update_same]
          omega
        · simp only [Function.update_noteq hb]
      · intro b
        by_cases hb : b = a
        · subst hb
          simp only [Function.update_same]
          omega
        · simp only [Function.update_noteq hb]
          rw [h21 b hb, ← h11 b hb]
          exact hpb b hb

theorem pad_SliceEqv (a : Fin 3) (mp : ℕ) (A D : T3) (pl pr : Fin 3 → ℕ)
    (hpla : pl a = mp) (hpra : pr a = mp)
    (Q lp rp B : ℕ)
    (hD : SliceEqv a Q D A)
    (hB : B + lp = mp + Q)
    (hlp : lp ≠ 0 → lp = mp ∧ Q = 0)
    (hrp : rp = 0 ∨ (rp = mp ∧ Q + D.dims a = A.dims a)) :
    SliceEqv a B (pad3 (Function.update pl a lp) (Function.update pr a rp) D)
      (pad3 pl pr A) := by
  obtain ⟨hD1, hD2, hD3⟩ := hD
  have hrp2 : rp ≤ mp := by rcases hrp with h | ⟨h, _⟩ <;> omega
  refine ⟨?_, ?_, ?_⟩
  · intro b hb
    simp only [pad3, Function.update_noteq hb]
    rw [hD1 b hb]
  · simp only [pad3, Function.update_same, hpla, hpra]
    omega
  · intro p hp
    have hpd : ∀ b, p b < Function.update pl a lp b + D.dims b
        + Function.update pr a rp b := by
      intro b
      have := hp b
      simpa [pad3] using this
    simp only [pad3]
    by_cases hbox : ∀ b, Function.update pl a lp b ≤ p b ∧
        p b < Function.update pl a lp b + D.dims b
    · rw [if_pos hbox]
      have hboxa := hbox a
      rw [Function.update_same] at hboxa
      have hga : pl a ≤ Function.update p a (B + p a) a ∧
          Function.update p a (B + p a) a < pl a + A.dims a := by
        rw [Function.update_same, hpla]
        omega
      rw [if_pos ?_]
      · rw [hD3 (fun b => p b - Function.update pl a lp b) ?_]
        · congr 1
          funext b
          by_cases hb : b = a
          · subst hb
            simp only [Function.update_same]
            omega
          · simp only [Function.update_noteq hb]
        · intro b
          by_cases hb : b = a
          · subst hb
            simp only [Function.update_same]
            omega
          · simp only [Function.update_noteq hb]
            have := hbox b
            rw [Function.update_noteq hb] at this
            omega
      · intro b
        by_cases hb : b = a
        · subst hb; exact hga
        · rw [Function.update_noteq hb]
          have hIb := hbox b
          rw [Function.update_noteq hb, hD1 b hb] at hIb
          exact hIb
    · have hnot : ¬ ∀ b2, pl b2 ≤ Function.update p a (B + p a) b2 ∧
          Function.update p a (B + p a) b2 < pl b2 + A.dims b2 := by
        intro hall
        apply hbox
        intro b
        by_cases hb : b = a
        · subst hb
          rw [Function.update_same]
          have hva := hall b
          rw [Function.update_same, hpla] at hva
          have hda := hpd b
          rw [Function.update_same, Function.update_same] at hda
          constructor
          · by_cases hl0 : lp = 0
            · omega
            · obtain ⟨hlm, hQ0⟩ := hlp hl0
              omega
          · by_cases hr0 : rp = 0
            · omega
            · rcases hrp with h | ⟨hrm, hQD⟩
              · omega
              · omega
        · rw [Function.update_noteq hb]
          have hva := hall b
          rw [Function.update_noteq hb, ← hD1 b hb] at hva
          exact hva
      rw [if_neg hbox, if_neg hnot]

/- ### Consecutive slices concatenate to the whole -/

/-- The list consists of consecutive slices of `V` along axis `a` starting
at offset `o` and, at the end, reaching exactly the extent of `V`. -/
def Consec (a : Fin 3) (V : T3) : ℕ → List T3 → Prop
  | o, [] => o = V.dims a
  | o, y :: ys => SliceEqv a o y V ∧ Consec a V (o + y.dims a) ys

theorem catList_SliceEqv (a : Fin 3) (V : T3) (ys : List T3) (y : T3) :
    ∀ o, Consec a V o (y :: ys) →
      SliceEqv a o (catList a (y :: ys)) V ∧
      (catList a (y :: ys)).dims a = V.dims a - o := by
  induction ys generalizing y with
  | nil =>
    intro o h
    obtain ⟨h1, h2⟩ := h
    have h2 : o + y.dims a = V.dims a := h2
    refine ⟨h1, ?_⟩
    show y.dims a = V.dims a - o
    omega
  | cons y2 ys ih =>
    intro o h
    obtain ⟨h1, h2⟩ := h
    obtain ⟨ih1, ih2⟩ := ih y2 (o + y.dims a) h2
    obtain ⟨h11, h12, h13⟩ := h1
    obtain ⟨t1, t2, t3⟩ := ih1
    have hcat : catList a (y :: y2 :: ys) = cat3 a y (catList a (y2 :: ys)) := rfl
    rw [hcat]
    constructor
    · refine ⟨?_, ?_, ?_⟩
      · intro b hb
        simp only [cat3, Function.update_noteq hb]
        exact h11 b hb
      · simp only [cat3, Function.update_same]
        omega
      · intro p hp
        have hpa : p a < y.dims a + (catList a (y2 :: ys)).dims a := by
          have := hp a
          simpa [cat3] using this
        have hpb : ∀ b, b ≠ a → p b < y.dims b := by
          intro b hb
          have := hp b
          simpa [cat3, Function.update_noteq hb] using this
        simp only [cat3]
        by_cases hc : p a < y.dims a
        · rw [if_pos hc]
          exact h13 p fun b => by
            by_cases hb : b = a
            · subst hb; exact hc
            · exact hpb b hb
        · rw [if_neg hc]
          rw [t3 (Function.update p a (p a - y.dims a)) ?_]
          · congr 1
            funext b
            by_cases hb : b = a
            · subst hb
              simp only [Function.update_same]
              omega
            · simp only [Function.update_noteq hb]
          · intro b
            by_cases hb : b = a
            · subst hb
              simp only [Function.update_same]
              omega
            · simp only [Function.update_noteq hb]
              rw [t1 b hb, ← h11 b hb]
              exact hpb b hb
    · simp only [cat3, Function.update_same]
      omega

theorem catList_Eqv (a : Fin 3) (V : T3) (ys : List T3) (y : T3)
    (h : Consec a V 0 (y :: ys)) : T3.Eqv (catList a (y :: ys)) V := by
  obtain ⟨⟨s1, _, s3⟩, sd⟩ := catList_SliceEqv a V ys y 0 h
  constructor
  · funext b
    by_cases hb : b = a
    · subst hb
      omega
    · exact s1 b hb
  · intro p hp
    rw [s3 p hp]
    congr 1
    rw [Nat.zero_add, Function.update_eq_self]

theorem numWin_mono (k s L M : ℕ) (h : L ≤ M) : numWin k s L ≤ numWin k s M := by
  have h2 : (L - k) / s ≤ (M - k) / s := Nat.div_le_div_right (by omega)
  unfold numWin
  obtain ⟨u, hu⟩ : ∃ u, (L - k) / s = u := ⟨_, rfl⟩
  obtain ⟨v, hv⟩ : ∃ v, (M - k) / s = v := ⟨_, rfl⟩
  rw [hu, hv] at h2 ⊢
  split <;> split <;> omega

/-- The chunk/cache pairs are the consecutive slices of `A` along `a` from
offset `q` (after the previous-axis cache concat), reaching the end. -/
def PairsFrom (a am1 : Fin 3) (A : T3) : ℕ → List (T3 × Option T3) → Prop
  | q, [] => q = A.dims a
  | q, (x0, pc0) :: rest =>
    SliceEqv a q (catOpt am1 pc0 x0) A ∧
    PairsFrom a am1 A (q + (catOpt am1 pc0 x0).dims a) rest

theorem PairsFrom_le (a am1 : Fin 3) (A : T3) :
    ∀ (l : List (T3 × Option T3)) (q : ℕ), PairsFrom a am1 A q l → q ≤ A.dims a := by
  intro l
  induction l with
  | nil => intro q h; exact le_of_eq h
  | cons hd tl ih =>
    intro q h
    obtain ⟨x0, pc0⟩ := hd
    obtain ⟨h1, h2⟩ := h
    have := ih _ h2
    omega

theorem catOpt_SliceEqv (a : Fin 3) (q : ℕ) (cache : Option T3) (X A : T3)
    (hX : SliceEqv a q X A)
    (hcache : ∀ cc, cache = some cc → SliceEqv a (q - cc.dims a) cc A ∧ cc.dims a ≤ q) :
    SliceEqv a (q - cacheDim a cache) (catOpt a cache X) A ∧
    (catOpt a cache X).dims a = cacheDim a cache + X.dims a := by
  cases cache with
  | none =>
    constructor
    · simpa [catOpt, cacheDim] using hX
    · simp [catOpt, cacheDim]
  | some cc =>
    obtain ⟨hc1, hc2⟩ := hcache cc rfl
    constructor
    · apply cat_SliceEqv a (q - cc.dims a) cc X A hc1
      have : q - cc.dims a + cc.dims a = q := by omega
      rw [this]
      exact hX
    · simp [catOpt, cat3, cacheDim, Function.update_same]

/-- Correctness of the per-chunk loop: given that the recursive call
computes the direct convolution of its own cache-extended padded chunk, the
loop's outputs are the consecutive slices of the direct convolution of the
whole, starting at the window offset already emitted. -/
theorem chunkLoop_correct (C : ConvSpec) (a am1 : Fin 3)
    (rec_fn : T3 → (Fin 3 → ℕ) × (Fin 3 → ℕ) → Option T3 → Except String T3)
    (pl pr : Fin 3 → ℕ) (A : T3)
    (hpla : pl a = C.modpad a) (hpra : pr a = C.modpad a)
    (hs : 1 ≤ C.stride a) (hks : C.stride a ≤ C.kernel a)
    (hrec : ∀ xb lp rp pcb y,
      (∀ cc b, pcb = some cc → b ≠ a → cc.dims b = xb.dims b) →
      rec_fn xb (Function.update pl a lp, Function.update pr a rp) pcb = Except.ok y →
      T3.Eqv y (conv3 C (pad3 (Function.update pl a lp) (Function.update pr a rp)
        (catOpt a pcb xb))))
    (pairs : List (T3 × Option T3)) :
    ∀ (q : ℕ) (cache : Option T3) (o : ℕ) (first : Bool) (ys : List T3),
      PairsFrom a am1 A q pairs →
      (∀ cc, cache = some cc → SliceEqv a (q - cc.dims a) cc A ∧ cc.dims a ≤ q) →
      (first = true → q = 0 ∧ cache = Option.none ∧ o = 0) →
      (pairs ≠ [] →
        C.stride a * o + cacheDim a cache
          + (if first then C.modpad a else 0) = C.modpad a + q) →
      (pairs = [] → o = numWin (C.kernel a) (C.stride a) ((pad3 pl pr A).dims a)) →
      (numWin (C.kernel a) (C.stride a) ((pad3 pl pr A).dims a)
        = o + numWin (C.kernel a) (C.stride a)
            ((pad3 pl pr A).dims a - C.stride a * o)) →
      (C.stride a * o ≤ (pad3 pl pr A).dims a) →
      chunkLoop C a am1 rec_fn pl pr first cache pairs = Except.ok ys →
      Consec a (conv3 C (pad3 pl pr A)) o ys := by
  induction pairs with
  | nil =>
    intro q cache o first ys _ _ _ _ hdone _ _ h
    have hys : ys = [] := by
      have : (Except.ok [] : Except String (List T3)) = Except.ok ys := h
      cases this
      rfl
    subst hys
    show o = (conv3 C (pad3 pl pr A)).dims a
    exact hdone rfl
  | cons hd rest ih =>
    obtain ⟨x0, pc0⟩ := hd
    intro q cache o first ys hpairs hcache hfirst hpos hdone hrem hso h
    obtain ⟨hX, hpairs2⟩ := hpairs
    -- abbreviations mirroring the loop body
    have hloop : chunkLoop C a am1 rec_fn pl pr first cache ((x0, pc0) :: rest)
      = (let xi := catOpt am1 pc0 x0
         let lp := if first then C.modpad a else 0
         let rp := if rest.isEmpty then C.modpad a else 0
         let cache_len := cacheDim a cache
         let ncs := get_cache_size (C.kernel a) (C.stride a)
           (xi.dims a + cache_len) (lp + rp)
         if ncs ≠ 0 ∧ ¬ (ncs ≤ xi.dims a) then
           Except.error "AssertionError: next cache exceeds chunk extent"
         else
           let next_cache := if ncs ≠ 0 then some (last3 a ncs xi) else Option.none
           (rec_fn xi (Function.update pl a lp, Function.update pr a rp) cache).bind
             fun yi =>
               (chunkLoop C a am1 rec_fn pl pr false next_cache rest).bind fun ys =>
                 Except.ok (yi :: ys)) := rfl
    rw [hloop] at h
    dsimp only at h
    obtain ⟨n, hn⟩ : ∃ v, (catOpt am1 pc0 x0).dims a = v := ⟨_, rfl⟩
    obtain ⟨c, hc⟩ : ∃ v, cacheDim a cache = v := ⟨_, rfl⟩
    obtain ⟨lp, hlpd⟩ : ∃ v, (if first then C.modpad a else 0) = v := ⟨_, rfl⟩
    obtain ⟨rp, hrpd⟩ : ∃ v, (if rest.isEmpty then C.modpad a else 0) = v := ⟨_, rfl⟩
    rw [hn, hc, hlpd, hrpd] at h
    obtain ⟨ncs, hncs⟩ : ∃ v,
      get_cache_size (C.kernel a) (C.stride a) (n + c) (lp + rp) = v := ⟨_, rfl⟩
    rw [hncs] at h
    by_cases hassert : ncs ≠ 0 ∧ ¬ ncs ≤ n
    · rw [if_pos hassert] at h
      exact absurd h (by simp)
    · rw [if_neg hassert] at h
      push_neg at hassert
      have hncs_le : ncs ≤ n := by
        by_cases h0 : ncs = 0
        · omega
        · exact hassert h0
      cases hr0 : rec_fn (catOpt am1 pc0 x0)
          (Function.update pl a lp, Function.update pr a rp) cache with
      | error e =>
        rw [hr0] at h
        exact absurd h (by simp [Except.bind])
      | ok y0 =>
        rw [hr0, except_ok_bind] at h
        cases hr1 : chunkLoop C a am1 rec_fn pl pr false
            (if ncs ≠ 0 then some (last3 a ncs (catOpt am1 pc0 x0)) else Option.none)
            rest with
        | error e =>
          rw [hr1] at h
          exact absurd h (by simp [Except.bind])
        | ok ys1 =>
          rw [hr1, except_ok_bind] at h
          injection h with h
          subst h
          -- facts about the combined (cache ++ chunk) data tensor
          obtain ⟨hD, hDdim⟩ := catOpt_SliceEqv a q cache (catOpt am1 pc0 x0) A hX hcache
          rw [hc] at hD
          rw [hc, hn] at hDdim
          have hcq : c ≤ q := by
            cases hcc : cache with
            | none => rw [hcc] at hc; simp [cacheDim] at hc; omega
            | some cc =>
              have h1 := (hcache cc hcc).2
              rw [hcc] at hc
              simp only [cacheDim] at hc
              omega
          have hposC : C.stride a * o + c + lp = C.modpad a + q := by
            have := hpos (by simp)
            rw [hc, hlpd] at this
            exact this
          have hqn : q + n ≤ A.dims a := by
            have := hD.2.1
            omega
          have hrple : rp ≤ C.modpad a := by
            by_cases hre : rest.isEmpty
            · rw [if_pos hre] at hrpd; omega
            · rw [if_neg hre] at hrpd; omega
          -- the padded chunk is the slice of the padded whole at stride * o
          have hI : SliceEqv a (C.stride a * o)
              (pad3 (Function.update pl a lp) (Function.update pr a rp)
                (catOpt a cache (catOpt am1 pc0 x0)))
              (pad3 pl pr A) := by
            apply pad_SliceEqv a (C.modpad a) A _ pl pr hpla hpra (q - c) lp rp _ hD
              (by omega)
            · intro hlp0
              cases hfv : first with
              | false =>
                rw [hfv] at hlpd
                simp at hlpd
                omega
              | true =>
                obtain ⟨hq0, hcn, _⟩ := hfirst hfv
                rw [hfv] at hlpd
                simp at hlpd
                have hc0 : c = 0 := by
                  rw [hcn] at hc
                  simpa [cacheDim] using hc.symm
                omega
            · by_cases hre : rest.isEmpty
              · right
                rw [if_pos hre] at hrpd
                have hrest_nil : rest = [] := List.isEmpty_iff.mp hre
                rw [hrest_nil] at hpairs2
                have hend : q + n = A.dims a := by
                  have : PairsFrom a am1 A (q + (catOpt am1 pc0 x0).dims a) [] := hpairs2
                  rw [hn] at this
                  exact this
                refine ⟨by omega, ?_⟩
                rw [hDdim]
                omega
              · left
                rw [if_neg hre] at hrpd
                omega
          -- extent of the padded chunk along the split axis
          have hIdim : (pad3 (Function.update pl a lp) (Function.update pr a rp)
              (catOpt a cache (catOpt am1 pc0 x0))).dims a = lp + (c + n) + rp := by
            simp only [pad3, Function.update_same]
            rw [hDdim]
          have hGdim : (pad3 pl pr A).dims a
              = C.modpad a + A.dims a + C.modpad a := by
            simp only [pad3, hpla, hpra]
          -- window count of this chunk
          obtain ⟨W, hW⟩ : ∃ v,
            numWin (C.kernel a) (C.stride a) (lp + (c + n) + rp) = v := ⟨_, rfl⟩
          have hsW : C.stride a * W ≤ lp + (c + n) + rp := by
            rw [← hW]
            exact s_mul_numWin_le _ _ _ hs hks
          have hsdist : C.stride a * (o + W) = C.stride a * o + C.stride a * W := by
            ring
          have hsoI : C.stride a * o + (lp + (c + n) + rp)
              ≤ (pad3 pl pr A).dims a := by
            rw [hGdim]
            omega
          have hIle : lp + (c + n) + rp
              ≤ (pad3 pl pr A).dims a - C.stride a * o := by
            omega
          have hbound : o + numWin (C.kernel a) (C.stride a)
              ((pad3 (Function.update pl a lp) (Function.update pr a rp)
                (catOpt a cache (catOpt am1 pc0 x0))).dims a)
              ≤ numWin (C.kernel a) (C.stride a) ((pad3 pl pr A).dims a) := by
            rw [hIdim, hW, hrem]
            have := numWin_mono (C.kernel a) (C.stride a) _ _ hIle
            rw [hW] at this
            omega
          -- the recursive call equals the direct conv of the padded chunk
          have hy0 : T3.Eqv y0 (conv3 C (pad3 (Function.update pl a lp)
              (Function.update pr a rp) (catOpt a cache (catOpt am1 pc0 x0)))) := by
            apply hrec _ _ _ _ _ ?_ hr0
            intro cc b hcc hb
            have h1 := ((hcache cc hcc).1).1 b hb
            have h2 := hX.1 b hb
            rw [h1, ← h2]
          have hy0dim : y0.dims a = W := by
            rw [hy0.1]
            show numWin (C.kernel a) (C.stride a) _ = W
            rw [hIdim, hW]
          have hy0slice : SliceEqv a o y0 (conv3 C (pad3 pl pr A)) :=
            SliceEqv_of_Eqv a o y0 _ _ hy0
              (conv3_SliceEqv C a o _ _ hI hbound)
          -- set up the next loop iteration's invariants
          have hncs_val : ncs = (n + c + (lp + rp))
              - C.stride a * numWin (C.kernel a) (C.stride a) (n + c + (lp + rp)) := by
            rw [← hncs]
            rfl
          have hargs : n + c + (lp + rp) = lp + (c + n) + rp := by omega
          have hncsW : ncs = (lp + (c + n) + rp) - C.stride a * W := by
            rw [hncs_val, hargs, hW]
          have hsoG : C.stride a * o ≤ (pad3 pl pr A).dims a := hso
          have hrem2 := hrem
          have hsplit := numWin_chunk_split (C.kernel a) (C.stride a)
            (lp + (c + n) + rp) ((pad3 pl pr A).dims a - C.stride a * o) hs hks hIle
          rw [hW] at hsplit
          have hGoW : (pad3 pl pr A).dims a - C.stride a * o - C.stride a * W
              = (pad3 pl pr A).dims a - C.stride a * (o + W) := by
            omega
          rw [hGoW] at hsplit
          have hrem' : numWin (C.kernel a) (C.stride a) ((pad3 pl pr A).dims a)
              = (o + W) + numWin (C.kernel a) (C.stride a)
                  ((pad3 pl pr A).dims a - C.stride a * (o + W)) := by
            omega
          have hcache' : ∀ cc,
              (if ncs ≠ 0 then some (last3 a ncs (catOpt am1 pc0 x0)) else Option.none)
                = some cc →
              SliceEqv a (q + n - cc.dims a) cc A ∧ cc.dims a ≤ q + n := by
            intro cc hcc
            by_cases h0 : ncs = 0
            · rw [if_neg (by omega)] at hcc
              exact absurd hcc (by simp)
            · rw [if_pos h0] at hcc
              injection hcc with hcc
              have hlast : last3 a ncs (catOpt am1 pc0 x0)
                  = slice3 a (n - ncs) ncs (catOpt am1 pc0 x0) := by
                rw [last3, hn]
              have hsl := SliceEqv_slice a q (n - ncs) ncs (catOpt am1 pc0 x0) A hX
                (by rw [hn]; omega)
              rw [← hlast, hcc] at hsl
              have hccdim : cc.dims a = ncs := by
                rw [← hcc, hlast]
                simp [slice3]
              refine ⟨?_, by omega⟩
              rw [hccdim]
              have : q + (n - ncs) = q + n - ncs := by omega
              rw [← this]
              exact hsl
          have hcd' : cacheDim a
              (if ncs ≠ 0 then some (last3 a ncs (catOpt am1 pc0 x0)) else Option.none)
              = ncs := by
            by_cases h0 : ncs = 0
            · rw [if_neg (by omega)]
              simp [cacheDim]
              omega
            · rw [if_pos h0]
              simp only [cacheDim, last3, hn]
              simp [slice3]
          have hconsec := ih (q + n)
            (if ncs ≠ 0 then some (last3 a ncs (catOpt am1 pc0 x0)) else Option.none)
            (o + W) false ys1
            (by rw [← hn]; exact hpairs2)
            hcache'
            (by intro hco; exact absurd hco (by simp))
            (by
              intro hrne
              rw [hcd']
              have hrpz : rp = 0 := by
                have hre : rest.isEmpty = false := by
                  cases hrest : rest with
                  | nil => exact absurd hrest hrne
                  | cons hd2 tl2 => rfl
                rw [hre] at hrpd
                simp at hrpd
                omega
              simp only [if_neg (by simp : ¬ (false = true))]
              omega)
            (by
              intro hre
              have hrpm : rp = C.modpad a := by
                rw [hre] at hrpd
                simp at hrpd
                omega
              have hend : q + n = A.dims a := by
                rw [hre] at hpairs2
                have : PairsFrom a am1 A (q + (catOpt am1 pc0 x0).dims a) [] := hpairs2
                rw [hn] at this
                exact this
              have hLeq : lp + (c + n) + rp
                  = (pad3 pl pr A).dims a - C.stride a * o := by
                rw [hGdim]
                omega
              rw [hrem, ← hLeq, hW])
            hrem'
            (by omega)
            hr1
          show SliceEqv a o y0 (conv3 C (pad3 pl pr A)) ∧
            Consec a (conv3 C (pad3 pl pr A)) (o + y0.dims a) ys1
          rw [hy0dim]
          exact ⟨hy0slice, hconsec⟩

theorem T3.ext2 (x y : T3) (hd : x.dims = y.dims) (hv : x.val = y.val) : x = y := by
  cases x
  cases y
  cases hd
  cases hv
  rfl

theorem Eqv_refl (x : T3) : T3.Eqv x x := ⟨rfl, fun _ _ => rfl⟩

theorem slice_SliceEqv (a : Fin 3) (o n : ℕ) (x : T3) (h : o + n ≤ x.dims a) :
    SliceEqv a o (slice3 a o n x) x := by
  refine ⟨?_, ?_, ?_⟩
  · intro b hb
    simp [slice3, Function.update_noteq hb]
  · simp only [slice3, Function.update_same]
    omega
  · intro p _
    rfl

theorem cat_slice_comm (a am1 : Fin 3) (hne : a ≠ am1) (o n : ℕ) (pc x : T3) :
    cat3 am1 (slice3 a o n pc) (slice3 a o n x) = slice3 a o n (cat3 am1 pc x) := by
  apply T3.ext2
  · funext b
    simp only [cat3, slice3]
    rw [Function.update_noteq (Ne.symm hne), Function.update_noteq (Ne.symm hne),
      ← Function.update_comm hne]
  · funext p
    simp only [cat3, slice3, Function.update_noteq (Ne.symm hne), Function.update_noteq hne]
    by_cases hcond : p am1 < pc.dims am1
    · rw [if_pos hcond, if_pos hcond]
    · rw [if_neg hcond, if_neg hcond]
      rw [Function.update_comm hne]

theorem pairs_split_none (a am1 : Fin 3) :
    ∀ (sizes : List ℕ) (o : ℕ) (x : T3), o + sizes.sum = x.dims a →
    PairsFrom a am1 x o
      ((split3 a x sizes o).zip
        (List.replicate (split3 a x sizes o).length Option.none)) := by
  intro sizes
  induction sizes with
  | nil =>
    intro o x h
    show o = x.dims a
    simpa using h
  | cons nn rest ih =>
    intro o x h
    simp only [List.sum_cons] at h
    show PairsFrom a am1 x o ((slice3 a o nn x, Option.none) ::
      (split3 a x rest (o + nn)).zip
        (List.replicate (split3 a x rest (o + nn)).length Option.none))
    refine ⟨?_, ?_⟩
    · show SliceEqv a o (slice3 a o nn x) x
      exact slice_SliceEqv a o nn x (by omega)
    · have hdim : (catOpt am1 Option.none (slice3 a o nn x)).dims a = nn := by
        simp [catOpt, slice3]
      rw [hdim]
      exact ih (o + nn) x (by omega)

theorem pairs_split_some (a am1 : Fin 3) (hne : a ≠ am1) (pcc : T3) :
    ∀ (sizes : List ℕ) (o : ℕ) (x : T3), pcc.dims a = x.dims a →
    o + sizes.sum = x.dims a →
    PairsFrom a am1 (cat3 am1 pcc x) o
      ((split3 a x sizes o).zip ((split3 a pcc sizes o).map some)) := by
  intro sizes
  induction sizes with
  | nil =>
    intro o x hdim h
    show o = (cat3 am1 pcc x).dims a
    simp only [cat3, Function.update_noteq hne]
    rw [hdim]
    simpa using h
  | cons nn rest ih =>
    intro o x hdim h
    simp only [List.sum_cons] at h
    show PairsFrom a am1 (cat3 am1 pcc x) o
      ((slice3 a o nn x, some (slice3 a o nn pcc)) ::
        (split3 a x rest (o + nn)).zip ((split3 a pcc rest (o + nn)).map some))
    have hcat : catOpt am1 (some (slice3 a o nn pcc)) (slice3 a o nn x)
        = slice3 a o nn (cat3 am1 pcc x) := by
      show cat3 am1 (slice3 a o nn pcc) (slice3 a o nn x) = _
      exact cat_slice_comm a am1 hne o nn pcc x
    refine ⟨?_, ?_⟩
    · rw [hcat]
      apply slice_SliceEqv
      simp only [cat3, Function.update_noteq hne]
      rw [hdim]
      omega
    · rw [hcat]
      have hdim2 : (slice3 a o nn (cat3 am1 pcc x)).dims a = nn := by
        simp [slice3]
      rw [hdim2]
      exact ih (o + nn) x hdim (by omega)

theorem bind_cons_ne (e1 : Except String T3) (e2 : Except String (List T3))
    (ys : List T3)
    (h : (e1.bind fun yi => e2.bind fun zs => Except.ok (yi :: zs))
      = Except.ok ys) : ys ≠ [] := by
  cases e1 with
  | error e => exact absurd h (by simp [Except.bind])
  | ok y =>
    rw [except_ok_bind] at h
    cases e2 with
    | error e => exact absurd h (by simp [Except.bind])
    | ok zs =>
      rw [except_ok_bind] at h
      injection h with h
      rw [← h]
      simp

theorem chunkLoop_cons_ne (C : ConvSpec) (a am1 : Fin 3)
    (rec_fn : T3 → (Fin 3 → ℕ) × (Fin 3 → ℕ) → Option T3 → Except String T3)
    (pl pr : Fin 3 → ℕ) (first : Bool) (cache : Option T3)
    (p0 : T3 × Option T3) (ps : List (T3 × Option T3)) (ys : List T3)
    (h : chunkLoop C a am1 rec_fn pl pr first cache (p0 :: ps) = Except.ok ys) :
    ys ≠ [] := by
  obtain ⟨x0, pc0⟩ := p0
  have hloop : chunkLoop C a am1 rec_fn pl pr first cache ((x0, pc0) :: ps)
    = (let xi := catOpt am1 pc0 x0
       let lp := if first then C.modpad a else 0
       let rp := if ps.isEmpty then C.modpad a else 0
       let cache_len := cacheDim a cache
       let ncs := get_cache_size (C.kernel a) (C.stride a)
         (xi.dims a + cache_len) (lp + rp)
       if ncs ≠ 0 ∧ ¬ (ncs ≤ xi.dims a) then
         Except.error "AssertionError: next cache exceeds chunk extent"
       else
         let next_cache := if ncs ≠ 0 then some (last3 a ncs xi) else Option.none
         (rec_fn xi (Function.update pl a lp, Function.update pr a rp) cache).bind
           fun yi =>
             (chunkLoop C a am1 rec_fn pl pr false next_cache ps).bind fun ys =>
               Except.ok (yi :: ys)) := rfl
  rw [hloop] at h
  dsimp only at h
  split_ifs at h
  all_goals first
    | exact bind_cons_ne _ _ _ h
    | simp at h

theorem chunkLoop_ne_nil (C : ConvSpec) (a am1 : Fin 3)
    (rec_fn : T3 → (Fin 3 → ℕ) × (Fin 3 → ℕ) → Option T3 → Except String T3)
    (pl pr : Fin 3 → ℕ) (first : Bool) (cache : Option T3)
    (pairs : List (T3 × Option T3)) (ys : List T3) (hne : pairs ≠ [])
    (h : chunkLoop C a am1 rec_fn pl pr first cache pairs = Except.ok ys) :
    ys ≠ [] := by
  cases pairs with
  | nil => exact absurd rfl hne
  | cons p0 ps => exact chunkLoop_cons_ne C a am1 rec_fn pl pr first cache p0 ps ys h

theorem mlcSizes_sum (d m : ℕ) : (mlcSizes d m).sum = d := by
  have h1 : (m - 1) * (d / m) ≤ m * (d / m) :=
    Nat.mul_le_mul_right _ (Nat.sub_le m 1)
  have h2 : m * (d / m) ≤ d := by
    rw [Nat.mul_comm]
    exact Nat.div_mul_le_self d m
  obtain ⟨P, hP⟩ : ∃ P, (m - 1) * (d / m) = P := ⟨_, rfl⟩
  obtain ⟨Q, hQ⟩ : ∃ Q, m * (d / m) = Q := ⟨_, rfl⟩
  rw [hP, hQ] at h1
  rw [hQ] at h2
  simp only [mlcSizes, List.sum_append, List.sum_replicate, smul_eq_mul,
    List.sum_cons, List.sum_nil, hP]
  omega

theorem mlcSizes_ne_nil (d m : ℕ) : mlcSizes d m ≠ [] := by
  simp [mlcSizes]

theorem mlc0_def (C : ConvSpec) (x : T3) (pl pr : Fin 3 → ℕ) (pc : Option T3) :
    memory_limit_conv C 0 x (pl, pr) pc
      = Except.ok (conv3 C (pad3 pl pr (catOpt 2 pc x))) := rfl

theorem mlc1_def (C : ConvSpec) (x : T3) (pl pr : Fin 3 → ℕ) (pc : Option T3) :
    memory_limit_conv C 1 x (pl, pr) pc
      = (if memOcc C 1 x pl pr pc < C.memory_limit then
          Except.ok (conv3 C (pad3 pl pr (catOpt 1 pc x)))
        else
          (chunkLoop C 2 1 (memory_limit_conv C 0) pl pr true Option.none
            ((split3 2 x (mlcSizes (x.dims 2)
                ((memOcc C 1 x pl pr pc / C.memory_limit).ceil.toNat)) 0).zip
              (mlcPcs 2 (mlcSizes (x.dims 2)
                  ((memOcc C 1 x pl pr pc / C.memory_limit).ceil.toNat)) pc
                (split3 2 x (mlcSizes (x.dims 2)
                  ((memOcc C 1 x pl pr pc / C.memory_limit).ceil.toNat)) 0).length))).map
            (catList 2)) := rfl

theorem mlc2_def (C : ConvSpec) (x : T3) (pl pr : Fin 3 → ℕ) (pc : Option T3) :
    memory_limit_conv C 2 x (pl, pr) pc
      = (if memOcc C 0 x pl pr pc < C.memory_limit then
          Except.ok (conv3 C (pad3 pl pr (catOpt 0 pc x)))
        else
          (chunkLoop C 1 0 (memory_limit_conv C 1) pl pr true Option.none
            ((split3 1 x (mlcSizes (x.dims 1)
                ((memOcc C 0 x pl pr pc / C.memory_limit).ceil.toNat)) 0).zip
              (mlcPcs 1 (mlcSizes (x.dims 1)
                  ((memOcc C 0 x pl pr pc / C.memory_limit).ceil.toNat)) pc
                (split3 1 x (mlcSizes (x.dims 1)
                  ((memOcc C 0 x pl pr pc / C.memory_limit).ceil.toNat)) 0).length))).map
            (catList 1)) := rfl

theorem mlc_chunk_finish (C : ConvSpec) (a am1 : Fin 3)
    (rec_fn : T3 → (Fin 3 → ℕ) × (Fin 3 → ℕ) → Option T3 → Except String T3)
    (pl pr : Fin 3 → ℕ) (A : T3) (pairs : List (T3 × Option T3)) (y : T3)
    (hpla : pl a = C.modpad a) (hpra : pr a = C.modpad a)
    (hs : 1 ≤ C.stride a) (hks : C.stride a ≤ C.kernel a)
    (hrec : ∀ xb lp rp pcb yb,
      (∀ cc b, pcb = some cc → b ≠ a → cc.dims b = xb.dims b) →
      rec_fn xb (Function.update pl a lp, Function.update pr a rp) pcb
        = Except.ok yb →
      T3.Eqv yb (conv3 C (pad3 (Function.update pl a lp)
        (Function.update pr a rp) (catOpt a pcb xb))))
    (hP : PairsFrom a am1 A 0 pairs)
    (hpne : pairs ≠ [])
    (h : (chunkLoop C a am1 rec_fn pl pr true Option.none pairs).map (catList a)
      = Except.ok y) :
    T3.Eqv y (conv3 C (pad3 pl pr A)) := by
  cases hcl : chunkLoop C a am1 rec_fn pl pr true Option.none pairs with
  | error e =>
    rw [hcl] at h
    exact absurd h (by simp [Except.map])
  | ok ys =>
    rw [hcl, except_ok_map] at h
    have hcons := chunkLoop_correct C a am1 rec_fn pl pr A hpla hpra hs hks hrec
      pairs 0 Option.none 0 true ys hP (fun cc hcc => by simp at hcc)
      (fun _ => ⟨rfl, rfl, rfl⟩) (fun _ => by simp [cacheDim])
      (fun hemp => absurd hemp hpne) (by simp) (by simp) hcl
    have hysne : ys ≠ [] :=
      chunkLoop_ne_nil C a am1 rec_fn pl pr true Option.none pairs ys hpne hcl
    cases ys with
    | nil => exact absurd rfl hysne
    | cons y0 ys2 =>
      injection h with h
      rw [← h]
      exact catList_Eqv a (conv3 C (pad3 pl pr A)) ys2 y0 hcons

theorem mlc_split_case (C : ConvSpec) (a am1 : Fin 3) (hane : a ≠ am1)
    (rec_fn : T3 → (Fin 3 → ℕ) × (Fin 3 → ℕ) → Option T3 → Except String T3)
    (pl pr : Fin 3 → ℕ) (x : T3) (pc : Option T3) (y : T3) (sizes : List ℕ)
    (hpla : pl a = C.modpad a) (hpra : pr a = C.modpad a)
    (hs : 1 ≤ C.stride a) (hks : C.stride a ≤ C.kernel a)
    (hrec : ∀ xb lp rp pcb yb,
      (∀ cc b, pcb = some cc → b ≠ a → cc.dims b = xb.dims b) →
      rec_fn xb (Function.update pl a lp, Function.update pr a rp) pcb
        = Except.ok yb →
      T3.Eqv yb (conv3 C (pad3 (Function.update pl a lp)
        (Function.update pr a rp) (catOpt a pcb xb))))
    (hcd : ∀ cc, pc = some cc → cc.dims a = x.dims a)
    (hsum : sizes.sum = x.dims a)
    (hsne : sizes ≠ [])
    (h : (chunkLoop C a am1 rec_fn pl pr true Option.none
      ((split3 a x sizes 0).zip
        (mlcPcs a sizes pc (split3 a x sizes 0).length))).map (catList a)
      = Except.ok y) :
    T3.Eqv y (conv3 C (pad3 pl pr (catOpt am1 pc x))) := by
  cases sizes with
  | nil => exact absurd rfl hsne
  | cons s0 srest =>
    cases pc with
    | none =>
      have hpne : (split3 a x (s0 :: srest) 0).zip
          (mlcPcs a (s0 :: srest) Option.none
            (split3 a x (s0 :: srest) 0).length) ≠ [] := by
        have hzip : (split3 a x (s0 :: srest) 0).zip
            (mlcPcs a (s0 :: srest) Option.none
              (split3 a x (s0 :: srest) 0).length)
          = (slice3 a 0 s0 x, Option.none) ::
            ((split3 a x srest (0 + s0)).zip
              (List.replicate (split3 a x srest (0 + s0)).length
                Option.none)) := rfl
        rw [hzip]
        exact List.cons_ne_nil _ _
      exact mlc_chunk_finish C a am1 rec_fn pl pr x _ y hpla hpra hs hks hrec
        (pairs_split_none a am1 (s0 :: srest) 0 x (by simpa using hsum)) hpne h
    | some pcc =>
      have hpne : (split3 a x (s0 :: srest) 0).zip
          (mlcPcs a (s0 :: srest) (some pcc)
            (split3 a x (s0 :: srest) 0).length) ≠ [] := by
        have hzip : (split3 a x (s0 :: srest) 0).zip
            (mlcPcs a (s0 :: srest) (some pcc)
              (split3 a x (s0 :: srest) 0).length)
          = (slice3 a 0 s0 x, some (slice3 a 0 s0 pcc)) ::
            ((split3 a x srest (0 + s0)).zip
              ((split3 a pcc srest (0 + s0)).map some)) := rfl
        rw [hzip]
        exact List.cons_ne_nil _ _
      exact mlc_chunk_finish C a am1 rec_fn pl pr (cat3 am1 pcc x) _ y hpla hpra
        hs hks hrec
        (pairs_split_some a am1 hane pcc (s0 :: srest) 0 x (hcd pcc rfl)
          (by simpa using hsum)) hpne h

theorem mlc1_correct (C : ConvSpec) (pl pr : Fin 3 → ℕ) (x : T3)
    (pc : Option T3) (y : T3)
    (hs : 1 ≤ C.stride 2) (hks : C.stride 2 ≤ C.kernel 2)
    (hpl : pl 2 = C.modpad 2) (hpr : pr 2 = C.modpad 2)
    (hcd : ∀ cc b, pc = some cc → b ≠ (1 : Fin 3) → cc.dims b = x.dims b)
    (h : memory_limit_conv C 1 x (pl, pr) pc = Except.ok y) :
    T3.Eqv y (conv3 C (pad3 pl pr (catOpt 1 pc x))) := by
  rw [mlc1_def] at h
  split_ifs at h with hocc
  · injection h with h
    subst h
    exact Eqv_refl _
  · refine mlc_split_case C 2 1 (by decide) (memory_limit_conv C 0) pl pr x pc y
      _ hpl hpr hs hks ?_ (fun cc hcc => hcd cc 2 hcc (by decide))
      (mlcSizes_sum _ _) (mlcSizes_ne_nil _ _) h
    intro xb lp rp pcb yb _ hok
    have hok2 : Except.ok (conv3 C (pad3 (Function.update pl 2 lp)
        (Function.update pr 2 rp) (catOpt 2 pcb xb))) = Except.ok yb := hok
    injection hok2 with he
    rw [← he]
    exact Eqv_refl _

theorem mlc2_correct (C : ConvSpec) (pl pr : Fin 3 → ℕ) (x : T3)
    (pc : Option T3) (y : T3)
    (hs1 : 1 ≤ C.stride 1) (hks1 : C.stride 1 ≤ C.kernel 1)
    (hs2 : 1 ≤ C.stride 2) (hks2 : C.stride 2 ≤ C.kernel 2)
    (hpl1 : pl 1 = C.modpad 1) (hpr1 : pr 1 = C.modpad 1)
    (hpl2 : pl 2 = C.modpad 2) (hpr2 : pr 2 = C.modpad 2)
    (hcd : ∀ cc b, pc = some cc → b ≠ (0 : Fin 3) → cc.dims b = x.dims b)
    (h : memory_limit_conv C 2 x (pl, pr) pc = Except.ok y) :
    T3.Eqv y (conv3 C (pad3 pl pr (catOpt 0 pc x))) := by
  rw [mlc2_def] at h
  split_ifs at h with hocc
  · injection h with h
    subst h
    exact Eqv_refl _
  · refine mlc_split_case C 1 0 (by decide) (memory_limit_conv C 1) pl pr x pc y
      _ hpl1 hpr1 hs1 hks1 ?_ (fun cc hcc => hcd cc 1 hcc (by decide))
      (mlcSizes_sum _ _) (mlcSizes_ne_nil _ _) h
    intro xb lp rp pcb yb hcc hok
    refine mlc1_correct C (Function.update pl 1 lp) (Function.update pr 1 rp)
      xb pcb yb hs2 hks2 ?_ ?_ hcc hok
    · rw [Function.update_noteq (by decide : (2 : Fin 3) ≠ 1)]
      exact hpl2
    · rw [Function.update_noteq (by decide : (2 : Fin 3) ≠ 1)]
      exact hpr2

/-- Counterexample instance: module with h-kernel 4, h-padding 1, all
strides 1, two h-positions, and a 2-GiB-scaled memory limit that forces a
split into two unit h-chunks. -/
def cexC1 : ConvSpec where
  kernel := fun a => if a = 1 then 4 else 1
  stride := fun _ => 1
  modpad := fun a => if a = 1 then 1 else 0
  g := fun _ => 0
  bc := 1
  esize := 1
  memory_limit := 2 / 1024 ^ 3

/-- Counterexample input: a single frame with two h-positions. -/
def cexX1 : T3 := ⟨fun a => if a = 1 then 2 else 1, fun _ => 0⟩

/-- Counterexample padding: the module padding of `cexC1`. -/
def cexPad1 : Fin 3 → ℕ := fun a => if a = 1 then 1 else 0

/-- Witness instance: all kernels and strides 1, no padding, limit 1 GiB,
so the direct branch is taken. -/
def witC1spec : ConvSpec where
  kernel := fun _ => 1
  stride := fun _ => 1
  modpad := fun _ => 0
  g := fun _ => 0
  bc := 1
  esize := 1
  memory_limit := 1

/-- Witness input: a single cell. -/
def witX1 : T3 := ⟨fun _ => 1, fun _ => 0⟩

/-- Witness padding: zero everywhere, matching `witC1spec`'s padding. -/
def witPad1 : Fin 3 → ℕ := fun _ => 0

theorem mlc_direct_eval :
    memory_limit_conv witC1spec 2 witX1 (witPad1, witPad1) Option.none
      = Except.ok (conv3 witC1spec
          (pad3 witPad1 witPad1 (catOpt 0 Option.none witX1))) := by
  have hocc : memOcc witC1spec 0 witX1 witPad1 witPad1 Option.none
      < witC1spec.memory_limit := by
    norm_num [memOcc, cacheDim, witC1spec, witX1, witPad1]
  rw [mlc2_def, if_pos hocc]

/-- C1: the split-invariance contract as stated fails: `memory_limit_conv`
does not always return the direct result — on this concrete module
(h-kernel 4, h-padding 1, strides 1) and 1x2x1 input, a memory limit that
splits the h-axis into two unit chunks makes the first chunk's required
boundary cache (2 h-positions) exceed the chunk extent (1), so the
executor fails its internal assert instead of returning any output. -/
theorem memory_limit_conv_split_invariance_counterexample :
    memory_limit_conv cexC1 2 cexX1 (cexPad1, cexPad1) Option.none
      = Except.error "AssertionError: next cache exceeds chunk extent" := by
  have hocc : ¬ (memOcc cexC1 0 cexX1 cexPad1 cexPad1 Option.none
      < cexC1.memory_limit) := by
    norm_num [memOcc, cacheDim, cexC1, cexX1, cexPad1,
      (by decide : (((2 : Fin 3) = 1)) = False),
      (by decide : (((0 : Fin 3) = 1)) = False)]
  have hM : (memOcc cexC1 0 cexX1 cexPad1 cexPad1 Option.none
      / cexC1.memory_limit).ceil.toNat = 2 := by
    have hq : memOcc cexC1 0 cexX1 cexPad1 cexPad1 Option.none
        / cexC1.memory_limit = 2 := by
      norm_num [memOcc, cacheDim, cexC1, cexX1, cexPad1,
      (by decide : (((2 : Fin 3) = 1)) = False),
      (by decide : (((0 : Fin 3) = 1)) = False)]
    rw [hq]
    rfl
  rw [mlc2_def, if_neg hocc, hM]
  rfl

/-- C1 (amended): whenever the entry-level `memory_limit_conv` call
(split dim 3, any finite memory limit, any split depth) returns
successfully, its output agrees with the direct un-split computation on the
cache-prepended, padded input, provided the module geometry is sane
(1 ≤ stride ≤ kernel on both spatial axes), the call's spatial padding
equals the module padding (the executor overrides outer-chunk padding with
the module's own), and the prev-cache matches the input's extents off the
temporal axis.  The original claim's unconditional form is refuted by the
assert failure in the counterexample. -/
theorem memory_limit_conv_split_invariance (C : ConvSpec) (pl pr : Fin 3 → ℕ)
    (x : T3) (pc : Option T3) (y : T3)
    (hs1 : 1 ≤ C.stride 1) (hks1 : C.stride 1 ≤ C.kernel 1)
    (hs2 : 1 ≤ C.stride 2) (hks2 : C.stride 2 ≤ C.kernel 2)
    (hpl1 : pl 1 = C.modpad 1) (hpr1 : pr 1 = C.modpad 1)
    (hpl2 : pl 2 = C.modpad 2) (hpr2 : pr 2 = C.modpad 2)
    (hcd : ∀ cc b, pc = some cc → b ≠ (0 : Fin 3) → cc.dims b = x.dims b)
    (h : memory_limit_conv C 2 x (pl, pr) pc = Except.ok y) :
    T3.Eqv y (directConv C 0 pl pr pc x) :=
  mlc2_correct C pl pr x pc y hs1 hks1 hs2 hks2 hpl1 hpr1 hpl2 hpr2 hcd h

/-- C1 witness: the amended theorem applied at the witness instance, whose
run takes the direct branch. -/
theorem memory_limit_conv_split_invariance_witness :
    T3.Eqv (conv3 witC1spec (pad3 witPad1 witPad1 (catOpt 0 Option.none witX1)))
      (directConv witC1spec 0 witPad1 witPad1 Option.none witX1) :=
  memory_limit_conv_split_invariance witC1spec witPad1 witPad1 witX1 Option.none
    (conv3 witC1spec (pad3 witPad1 witPad1 (catOpt 0 Option.none witX1)))
    (by decide) (by decide) (by decide) (by decide) rfl rfl rfl rfl
    (fun cc b hcc => by simp at hcc) mlc_direct_eval

end CausalInflation
